import Mathlib

/-!
# Two-link planar arm (`robot.js`): kinematics, trajectory blending and arm state

A shallow embedding of the computational core of `src/robot.js`:

* `inverseKinematics` (lines 121-140),
* `isPointReachable` (lines 143-150),
* `generateTrajectory` (lines 166-206),
* `moveToPosition` / `goToHomePosition` (lines 341-383),
* the global `robotState` (lines 10-15) and `ROBOT_CONFIG` (lines 2-7).

The program computes with IEEE 754 doubles.  It is embedded twice.

* `Robot.Double.*` is the program in double precision: a finite double is the
  rational number it denotes, every operator is the exact operation followed by
  rounding to the nearest double (`roundDouble`), `Math.sqrt` is the correctly
  rounded root (`sqrtDouble`), and the functions whose precision ECMAScript
  leaves open (`Math.pow`, `Math.sin`, `Math.cos`, `Math.atan2`) are a parameter
  (`MathLibrary`).  Statements that depend on rounding are made here.
* `Robot.*` is the exact reading: the same expressions over the real numbers,
  with `Math.atan2` the principal argument.  It is used for statements that do
  not depend on rounding (which branch rejects a move, derivatives of the blend
  polynomial, the figures of the home pose to four decimals).

The one non-numeric value that the program tests for, `NaN` coming out of
`parseFloat`, is `none` in an `Option`.  Canvas drawing, charts and the alert
banner do not feed back into `robotState` and are not modelled; which alert
branch a call takes is kept as a `MoveOutcome`.
-/

namespace Robot

/-! ## Binary64 arithmetic

JavaScript numbers are IEEE 754 binary64 values.  A finite double is modelled
by the rational number it denotes, and every arithmetic operation by the exact
operation followed by rounding to the nearest double, ties to even.  Overflow
to an infinity and `NaN` results are outside this model; the statements below
stay within the finite range. -/

/-- The integer nearest to `u`, ties to the even one. -/
def roundHalfEven (u : ℚ) : ℤ :=
  if u - ⌊u⌋ < 1 / 2 then ⌊u⌋
  else if 1 / 2 < u - ⌊u⌋ then ⌊u⌋ + 1
  else if ⌊u⌋ % 2 = 0 then ⌊u⌋ else ⌊u⌋ + 1

/-- The binary exponent of the unit in the last place of the double nearest to
`x`: 53 significant bits, and `2 ^ (-1074)` in the subnormal range. -/
def ulpExponent (x : ℚ) : ℤ := max (Int.log 2 |x| - 52) (-1074)

/-- Rounding to the nearest double, ties to even. -/
def roundDouble (x : ℚ) : ℚ :=
  (roundHalfEven (x / 2 ^ ulpExponent x) : ℚ) * 2 ^ ulpExponent x

/-- The rational `x` is the value of a finite double. -/
def IsDouble (x : ℚ) : Prop := roundDouble x = x ∧ |x| < 2 ^ 1024

/-- `Math.sqrt` on a double: the correctly rounded square root, computed from
the integer square root of the scaled argument (`0` for arguments that are not
positive; the program only takes the root of a sum of squares). -/
def sqrtDouble (x : ℚ) : ℚ :=
  if x ≤ 0 then 0
  else
    let s : ℤ := Int.log 2 x / 2 - 52
    let v : ℚ := x / 4 ^ s
    let k : ℕ := Nat.sqrt ⌊v⌋₊
    let m : ℕ :=
      if v < ((k : ℚ) + 1 / 2) ^ 2 then k
      else if ((k : ℚ) + 1 / 2) ^ 2 < v then k + 1
      else if k % 2 = 0 then k else k + 1
    (m : ℚ) * 2 ^ s

/-- The functions of `Math` whose results ECMAScript leaves to the
implementation (`Math.pow`, `Math.sin`, `Math.cos`, `Math.atan2`), as functions
on doubles.  They are a parameter of the double-precision model. -/
structure MathLibrary where
  pow : ℚ → ℕ → ℚ
  sin : ℚ → ℚ
  cos : ℚ → ℚ
  atan2 : ℚ → ℚ → ℚ

/-- Which branch of `moveToPosition` a call takes: the three alert branches
and the accepted move. -/
inductive MoveOutcome where
  | invalidInput
  | outOfWorkspace
  | ikFailure
  | moved
  deriving DecidableEq

namespace Double

/-! ## The program in double precision -/

/-- The operator `+` on doubles. -/
def add (a b : ℚ) : ℚ := roundDouble (a + b)

/-- The operator `-` on doubles. -/
def sub (a b : ℚ) : ℚ := roundDouble (a - b)

/-- The operator `*` on doubles. -/
def mul (a b : ℚ) : ℚ := roundDouble (a * b)

/-- The operator `/` on doubles (the divisors of the program are not zero). -/
def div (a b : ℚ) : ℚ := roundDouble (a / b)

/-- `ROBOT_CONFIG.l1`: the double written `0.12`. -/
def l1 : ℚ := roundDouble 0.12

/-- `ROBOT_CONFIG.l2`: the double written `0.12`. -/
def l2 : ℚ := roundDouble 0.12

/-- The quantity `D` of `inverseKinematics` (line 126), evaluated left to right
in double precision. -/
def ikD (x y : ℚ) : ℚ :=
  div (sub (sub (add (mul x x) (mul y y)) (mul l1 l1)) (mul l2 l2)) (mul (mul 2 l1) l2)

/-- `inverseKinematics(x, y)` in double precision; `none` is `null`. -/
def inverseKinematics (M : MathLibrary) (x y : ℚ) : Option (ℚ × ℚ) :=
  let D := div (sub (sub (add (mul x x) (mul y y)) (mul l1 l1)) (mul l2 l2)) (mul (mul 2 l1) l2)
  if |D| > 1 then
    none
  else
    let q2 := M.atan2 (sqrtDouble (sub 1 (mul D D))) D
    let q1 := sub (M.atan2 y x) (M.atan2 (mul l2 (M.sin q2)) (add l1 (mul l2 (M.cos q2))))
    some (q1, q2)

/-- `isPointReachable(x, y)` in double precision. -/
def isPointReachable (x y : ℚ) : Prop :=
  let distance := sqrtDouble (add (mul x x) (mul y y))
  distance ≤ add l1 l2 ∧ distance ≥ |sub l1 l2|

instance (x y : ℚ) : Decidable (isPointReachable x y) := by
  unfold isPointReachable; infer_instance

/-- A Cartesian point `{ x, y }` of doubles. -/
structure Point where
  x : ℚ
  y : ℚ

/-- The object `robotState` with double fields. -/
structure RobotState where
  q1 : ℚ
  q2 : ℚ
  currentPos : Point
  trajectory : List Point

/-- The forward-kinematics expressions of lines 195-196 in double precision. -/
def forwardKinematics (M : MathLibrary) (q1 q2 : ℚ) : Point where
  x := add (mul l1 (M.cos q1)) (mul l2 (M.cos (add q1 q2)))
  y := add (mul l1 (M.sin q1)) (mul l2 (M.sin (add q1 q2)))

/-- The constant `timeSteps`. -/
def timeSteps : ℕ := 100

/-- The polynomial `h` of lines 187-189 in double precision. -/
def blend (M : MathLibrary) (normalizedTime : ℚ) : ℚ :=
  add (sub (mul 10 (M.pow normalizedTime 3)) (mul 15 (M.pow normalizedTime 4)))
    (mul 6 (M.pow normalizedTime 5))

/-- The value `normalizedTime` of line 184 in double precision. -/
def normalizedTime (t ti tf : ℚ) : ℚ := div (sub t ti) (sub tf ti)

/-- The time `t` of loop iteration `i` (line 183) in double precision. -/
def sampleTime (ti tf : ℚ) (i : ℕ) : ℚ :=
  add ti (mul (sub tf ti) (div (i : ℚ) (timeSteps : ℚ)))

/-- A joint value at time `t` (lines 191-192) in double precision. -/
def jointAt (M : MathLibrary) (current qd ti tf t : ℚ) : ℚ :=
  add current (mul (sub qd current) (blend M (normalizedTime t ti tf)))

/-- The object returned by `generateTrajectory`: five parallel arrays. -/
structure Trajectory where
  time : List ℚ
  q1 : List ℚ
  q2 : List ℚ
  x : List ℚ
  y : List ℚ

/-- The values pushed by one iteration of the loop of `generateTrajectory`. -/
structure Sample where
  t : ℚ
  q1 : ℚ
  q2 : ℚ
  x : ℚ
  y : ℚ

/-- The body of the loop of `generateTrajectory` at index `i` in double
precision. -/
def trajectorySample (M : MathLibrary) (currentQ1 currentQ2 qd1 qd2 ti tf : ℚ) (i : ℕ) :
    Sample :=
  let t := sampleTime ti tf i
  let q1 := jointAt M currentQ1 qd1 ti tf t
  let q2 := jointAt M currentQ2 qd2 ti tf t
  let p := forwardKinematics M q1 q2
  { t := t, q1 := q1, q2 := q2, x := p.x, y := p.y }

/-- `generateTrajectory(qd1, qd2, ti, tf)` run in state `s`, in double
precision. -/
def generateTrajectory (M : MathLibrary) (s : RobotState) (qd1 qd2 ti tf : ℚ) : Trajectory :=
  let currentQ1 := s.q1
  let currentQ2 := s.q2
  let samples := (List.range (timeSteps + 1)).map
    (trajectorySample M currentQ1 currentQ2 qd1 qd2 ti tf)
  { time := samples.map Sample.t
    q1 := samples.map Sample.q1
    q2 := samples.map Sample.q2
    x := samples.map Sample.x
    y := samples.map Sample.y }

/-- The cartesian trail of line 366. -/
def cartesianTrail (trajectory : Trajectory) : List Point :=
  List.zipWith (fun x y => (⟨x, y⟩ : Point)) trajectory.x trajectory.y

/-- `moveToPosition()` in double precision, with the results of the two
`parseFloat` calls passed in (`none` is `NaN`): the branch taken and the value
of `robotState` after the call. -/
def moveToPosition (M : MathLibrary) (xd yd : Option ℚ) (s : RobotState) :
    MoveOutcome × RobotState :=
  match xd, yd with
  | some xd, some yd =>
    if ¬ isPointReachable xd yd then
      (MoveOutcome.outOfWorkspace, s)
    else
      match inverseKinematics M xd yd with
      | none => (MoveOutcome.ikFailure, s)
      | some ikSolution =>
        let trajectory := generateTrajectory M s ikSolution.1 ikSolution.2 0 20
        (MoveOutcome.moved,
          { q1 := ikSolution.1
            q2 := ikSolution.2
            currentPos := ⟨xd, yd⟩
            trajectory := cartesianTrail trajectory })
  | _, _ => (MoveOutcome.invalidInput, s)

end Double

/-! ## Assumptions on `Math.pow` and on the angles -/

/-- The blend polynomial `10 n^3 - 15 n^4 + 6 n^5` in exact arithmetic. -/
def blendExact (n : ℚ) : ℚ := 10 * n ^ 3 - 15 * n ^ 4 + 6 * n ^ 5

/-- `Math.pow(n, k)` for a double `n` in `[0, 1]` and `k = 3, 4, 5` is within `2 ^ (-49)`
of the exact power (every engine is within one unit in the last place, which is
at most `2 ^ (-52)` here). -/
def MathLibrary.PowAccurate (M : MathLibrary) : Prop :=
  ∀ (n : ℚ) (k : ℕ), IsDouble n → 0 ≤ n → n ≤ 1 → 3 ≤ k → k ≤ 5 →
    |M.pow n k - n ^ k| ≤ 1 / 2 ^ 49

/-- `Math.pow(0, k)` is `0` for `k = 3, 4, 5` (required by ECMAScript for a
positive exponent). -/
def MathLibrary.PowExactAtZero (M : MathLibrary) : Prop :=
  ∀ k : ℕ, 3 ≤ k → k ≤ 5 → M.pow 0 k = 0

/-- `Math.pow(1, k)` is `1` for `k = 3, 4, 5`. -/
def MathLibrary.PowExactAtOne (M : MathLibrary) : Prop :=
  ∀ k : ℕ, 3 ≤ k → k ≤ 5 → M.pow 1 k = 1

/-- The start angle `current` and the target angle `qd` of a joint are finite
doubles whose difference does not overflow. -/
def FiniteMove (current qd : ℚ) : Prop :=
  IsDouble current ∧ IsDouble qd ∧ |qd - current| < 2 ^ 1023

/-- A `Math` object to instantiate the assumptions with: `pow` is the correctly
rounded power; `sin`, `cos` and `atan2` are rounded low-order approximations
that agree with every engine at the argument `0`. -/
def referenceMath : MathLibrary where
  pow := fun x k => roundDouble (x ^ k)
  sin := fun x => roundDouble (x - x ^ 3 / 6)
  cos := fun x => roundDouble (1 - x ^ 2 / 2)
  atan2 := fun y x => if x = 0 then 0 else roundDouble (y / x)

/-- The arm stretched along the x axis: both angles `0`, tool point
`(0.24, 0)`, no stored trail. -/
def Double.stretchedState : Double.RobotState where
  q1 := 0
  q2 := 0
  currentPos := ⟨roundDouble 0.24, 0⟩
  trajectory := []

end Robot

noncomputable section

namespace Robot

/-! # The exact reading -/

/-! ## Library functions of `Math` -/

/-- `Math.atan2(y, x)` on real arguments: the angle in `(-π, π]` of the vector
`(x, y)`, with `atan2(0, 0) = 0`.  This is the principal argument of the
complex number `x + y i`. -/
def atan2 (y x : ℝ) : ℝ := Complex.arg ⟨x, y⟩

/-! ## Configuration and state -/

/-- `ROBOT_CONFIG.l1`, length of link 1 in metres. -/
def ROBOT_CONFIG.l1 : ℝ := 0.12

/-- `ROBOT_CONFIG.l2`, length of link 2 in metres. -/
def ROBOT_CONFIG.l2 : ℝ := 0.12

/-- A Cartesian point `{ x, y }`. -/
structure Point where
  x : ℝ
  y : ℝ

/-- `ROBOT_CONFIG.initialPos`. -/
def ROBOT_CONFIG.initialPos : Point := ⟨0.14, 0.14⟩

/-- The global `robotState` object. -/
structure RobotState where
  q1 : ℝ
  q2 : ℝ
  currentPos : Point
  trajectory : List Point

/-- The initial value of `robotState` (lines 10-15). -/
def robotState : RobotState where
  q1 := Real.pi / 2
  q2 := 0
  currentPos := ⟨0.14, 0.14⟩
  trajectory := []

/-- The object `{ q1, q2 }` returned by `inverseKinematics`. -/
structure JointAngles where
  q1 : ℝ
  q2 : ℝ

/-! ## Inverse kinematics and the workspace test -/

/-- The law-of-cosines quantity `D` of `inverseKinematics` (line 126). -/
def ikD (x y : ℝ) : ℝ :=
  (x * x + y * y - ROBOT_CONFIG.l1 * ROBOT_CONFIG.l1 - ROBOT_CONFIG.l2 * ROBOT_CONFIG.l2) /
    (2 * ROBOT_CONFIG.l1 * ROBOT_CONFIG.l2)

/-- `inverseKinematics(x, y)`; `none` is the `null` result. -/
def inverseKinematics (x y : ℝ) : Option JointAngles :=
  let l1 := ROBOT_CONFIG.l1
  let l2 := ROBOT_CONFIG.l2
  let D := (x * x + y * y - l1 * l1 - l2 * l2) / (2 * l1 * l2)
  if |D| > 1 then
    none
  else
    let q2 := atan2 (Real.sqrt (1 - D * D)) D
    let q1 := atan2 y x - atan2 (l2 * Real.sin q2) (l1 + l2 * Real.cos q2)
    some { q1 := q1, q2 := q2 }

/-- `isPointReachable(x, y)`. -/
def isPointReachable (x y : ℝ) : Prop :=
  let l1 := ROBOT_CONFIG.l1
  let l2 := ROBOT_CONFIG.l2
  let distance := Real.sqrt (x * x + y * y)
  distance ≤ (l1 + l2) ∧ distance ≥ |l1 - l2|

instance (x y : ℝ) : Decidable (isPointReachable x y) := by
  unfold isPointReachable; infer_instance

/-! ## Trajectory generation -/

/-- The forward-kinematics expressions of `generateTrajectory` (lines 195-196). -/
def forwardKinematics (q1 q2 : ℝ) : Point where
  x := ROBOT_CONFIG.l1 * Real.cos q1 + ROBOT_CONFIG.l2 * Real.cos (q1 + q2)
  y := ROBOT_CONFIG.l1 * Real.sin q1 + ROBOT_CONFIG.l2 * Real.sin (q1 + q2)

/-- The constant `timeSteps` of `generateTrajectory`. -/
def timeSteps : ℕ := 100

/-- The fifth-order polynomial `h` as a function of `normalizedTime`
(lines 187-189). -/
def blend (normalizedTime : ℝ) : ℝ :=
  10 * normalizedTime ^ 3 - 15 * normalizedTime ^ 4 + 6 * normalizedTime ^ 5

/-- The value `normalizedTime` computed from the time `t` (line 184). -/
def normalizedTime (t ti tf : ℝ) : ℝ := (t - ti) / (tf - ti)

/-- The time `t` of loop iteration `i` (line 183). -/
def sampleTime (ti tf : ℝ) (i : ℕ) : ℝ := ti + (tf - ti) * ((i : ℝ) / (timeSteps : ℝ))

/-- A joint value at time `t`: `current + (qd - current) * h` (lines 191-192). -/
def jointAt (current qd ti tf t : ℝ) : ℝ :=
  current + (qd - current) * blend (normalizedTime t ti tf)

/-- The object returned by `generateTrajectory`: five parallel arrays. -/
structure Trajectory where
  time : List ℝ
  q1 : List ℝ
  q2 : List ℝ
  x : List ℝ
  y : List ℝ

/-- The values pushed by one iteration of the loop of `generateTrajectory`. -/
structure Sample where
  t : ℝ
  q1 : ℝ
  q2 : ℝ
  x : ℝ
  y : ℝ

/-- The body of the loop of `generateTrajectory` at index `i` (lines 183-196). -/
def trajectorySample (currentQ1 currentQ2 qd1 qd2 ti tf : ℝ) (i : ℕ) : Sample :=
  let t := sampleTime ti tf i
  let q1 := jointAt currentQ1 qd1 ti tf t
  let q2 := jointAt currentQ2 qd2 ti tf t
  let p := forwardKinematics q1 q2
  { t := t, q1 := q1, q2 := q2, x := p.x, y := p.y }

/-- `generateTrajectory(qd1, qd2, ti, tf)` run in state `s`: the loop runs for
`i = 0, ..., timeSteps` and pushes one entry to each array.  The defaults
`ti = 0`, `tf = 20` of the source are written out at the call sites. -/
def generateTrajectory (s : RobotState) (qd1 qd2 ti tf : ℝ) : Trajectory :=
  let currentQ1 := s.q1
  let currentQ2 := s.q2
  let samples := (List.range (timeSteps + 1)).map
    (trajectorySample currentQ1 currentQ2 qd1 qd2 ti tf)
  { time := samples.map Sample.t
    q1 := samples.map Sample.q1
    q2 := samples.map Sample.q2
    x := samples.map Sample.x
    y := samples.map Sample.y }

/-! ## Event handlers -/

/-- The cartesian trail `trajectory.x.map((x, i) => ({ x, y: trajectory.y[i] }))`
(line 366). -/
def cartesianTrail (trajectory : Trajectory) : List Point :=
  List.zipWith (fun x y => (⟨x, y⟩ : Point)) trajectory.x trajectory.y

/-- `moveToPosition()` with `parseFloat(xdInput.value)` and
`parseFloat(ydInput.value)` passed in as `xd`, `yd` (`none` is `NaN`): the
branch taken and the value of `robotState` after the call. -/
def moveToPosition (xd yd : Option ℝ) (s : RobotState) : MoveOutcome × RobotState :=
  match xd, yd with
  | some xd, some yd =>
    if ¬ isPointReachable xd yd then
      (MoveOutcome.outOfWorkspace, s)
    else
      match inverseKinematics xd yd with
      | none => (MoveOutcome.ikFailure, s)
      | some ikSolution =>
        let trajectory := generateTrajectory s ikSolution.q1 ikSolution.q2 0 20
        (MoveOutcome.moved,
          { q1 := ikSolution.q1
            q2 := ikSolution.q2
            currentPos := ⟨xd, yd⟩
            trajectory := cartesianTrail trajectory })
  | _, _ => (MoveOutcome.invalidInput, s)

/-- `goToHomePosition()`: the inputs are set to `ROBOT_CONFIG.initialPos` and
`moveToPosition` is called. -/
def goToHomePosition (s : RobotState) : MoveOutcome × RobotState :=
  moveToPosition (some ROBOT_CONFIG.initialPos.x) (some ROBOT_CONFIG.initialPos.y) s

/-- The `load` listener (lines 405-410): the stored trail is replaced by the one
generated from the current angles to themselves; angles and `currentPos` are
not touched. -/
def loadHandler (s : RobotState) : RobotState :=
  let trajectory := generateTrajectory s s.q1 s.q2 0 20
  { s with trajectory := cartesianTrail trajectory }

/-- A user action on the page: a click on the move button with the parsed
values of the two inputs, or a click on the home button. -/
inductive Command where
  | move (xd yd : Option ℝ)
  | home

/-- The value of `robotState` after one user action. -/
def step (s : RobotState) : Command → RobotState
  | Command.move xd yd => (moveToPosition xd yd s).2
  | Command.home => (goToHomePosition s).2

/-- The value of `robotState` after a sequence of user actions. -/
def run (s : RobotState) (commands : List Command) : RobotState :=
  commands.foldl step s

/-- The arm-state invariant: `currentPos` is the forward-kinematics image of
the current joint angles. -/
def currentPosInvariant (s : RobotState) : Prop :=
  s.currentPos.x =
      ROBOT_CONFIG.l1 * Real.cos s.q1 + ROBOT_CONFIG.l2 * Real.cos (s.q1 + s.q2) ∧
    s.currentPos.y =
      ROBOT_CONFIG.l1 * Real.sin s.q1 + ROBOT_CONFIG.l2 * Real.sin (s.q1 + s.q2)

/-! ## Facts about `atan2` -/

theorem hypot_mul_cos_atan2 (y x : ℝ) :
    Real.sqrt (x * x + y * y) * Real.cos (atan2 y x) = x := by
  have h := Complex.abs_mul_cos_arg (⟨x, y⟩ : ℂ)
  rwa [Complex.abs_apply, Complex.normSq_mk] at h

theorem hypot_mul_sin_atan2 (y x : ℝ) :
    Real.sqrt (x * x + y * y) * Real.sin (atan2 y x) = y := by
  have h := Complex.abs_mul_sin_arg (⟨x, y⟩ : ℂ)
  rwa [Complex.abs_apply, Complex.normSq_mk] at h

theorem atan2_zero_zero : atan2 0 0 = 0 := by
  have h : (⟨0, 0⟩ : ℂ) = 0 := rfl
  simp [atan2, h]

theorem atan2_mem_Ioc (y x : ℝ) : atan2 y x ∈ Set.Ioc (-Real.pi) Real.pi :=
  Complex.arg_mem_Ioc _

/-- For a vector of length one the cosine and sine of `atan2` are its
coordinates. -/
theorem cos_sin_atan2_of_unit {y x : ℝ} (h : x * x + y * y = 1) :
    Real.cos (atan2 y x) = x ∧ Real.sin (atan2 y x) = y := by
  have hc := hypot_mul_cos_atan2 y x
  have hs := hypot_mul_sin_atan2 y x
  rw [h, Real.sqrt_one, one_mul] at hc hs
  exact ⟨hc, hs⟩

/-- The polar form behind `atan2`: a vector of length `r` pointing in direction
`θ ∈ (-π, π]` has `atan2` equal to `θ`. -/
theorem atan2_polar {r θ : ℝ} (hr : 0 < r) (hθ : θ ∈ Set.Ioc (-Real.pi) Real.pi) :
    atan2 (r * Real.sin θ) (r * Real.cos θ) = θ := by
  have h : (⟨r * Real.cos θ, r * Real.sin θ⟩ : ℂ) =
      (r : ℂ) * (Complex.cos θ + Complex.sin θ * Complex.I) := by
    apply Complex.ext <;> simp [← Complex.ofReal_cos, ← Complex.ofReal_sin]
  rw [atan2, h, Complex.arg_mul_cos_add_sin_mul_I hr hθ]

/-! ## The workspace test against the solver's own guard -/

theorem isPointReachable_iff_sq (x y : ℝ) :
    isPointReachable x y ↔ x * x + y * y ≤ 0.0576 := by
  have h0 : (0 : ℝ) ≤ x * x + y * y := add_nonneg (mul_self_nonneg x) (mul_self_nonneg y)
  simp only [isPointReachable, ROBOT_CONFIG.l1, ROBOT_CONFIG.l2, sub_self, abs_zero, ge_iff_le]
  constructor
  · rintro ⟨h, -⟩
    have h2 := (Real.sqrt_le_left (by norm_num)).1 h
    norm_num at h2 ⊢
    linarith
  · intro h
    refine ⟨?_, Real.sqrt_nonneg _⟩
    rw [Real.sqrt_le_left (by norm_num)]
    norm_num at h ⊢
    linarith

theorem ikD_eq (x y : ℝ) : ikD x y = (x * x + y * y - 0.0288) / 0.0288 := by
  simp only [ikD, ROBOT_CONFIG.l1, ROBOT_CONFIG.l2]
  ring

theorem abs_ikD_le_one_iff (x y : ℝ) : |ikD x y| ≤ 1 ↔ x * x + y * y ≤ 0.0576 := by
  have h0 : (0 : ℝ) ≤ x * x + y * y := add_nonneg (mul_self_nonneg x) (mul_self_nonneg y)
  rw [ikD_eq, abs_le, le_div_iff₀ (by norm_num), div_le_iff₀ (by norm_num)]
  constructor
  · rintro ⟨-, h⟩
    norm_num at h ⊢
    linarith
  · intro h
    norm_num at h ⊢
    constructor <;> linarith

theorem inverseKinematics_of_abs_le {x y : ℝ} (h : |ikD x y| ≤ 1) :
    inverseKinematics x y =
      some { q1 := atan2 y x -
                atan2 (ROBOT_CONFIG.l2 * Real.sin (atan2 (Real.sqrt (1 - ikD x y * ikD x y)) (ikD x y)))
                  (ROBOT_CONFIG.l1 +
                    ROBOT_CONFIG.l2 * Real.cos (atan2 (Real.sqrt (1 - ikD x y * ikD x y)) (ikD x y)))
             q2 := atan2 (Real.sqrt (1 - ikD x y * ikD x y)) (ikD x y) } := by
  exact if_neg (not_lt.2 h)

theorem inverseKinematics_of_one_lt {x y : ℝ} (h : 1 < |ikD x y|) :
    inverseKinematics x y = none := by
  exact if_pos h

theorem inverseKinematics_ne_none_iff (x y : ℝ) :
    inverseKinematics x y ≠ none ↔ |ikD x y| ≤ 1 := by
  constructor
  · intro h
    by_contra hc
    exact h (inverseKinematics_of_one_lt (not_le.1 hc))
  · intro h
    rw [inverseKinematics_of_abs_le h]
    simp

/-! ## Forward kinematics of the solver's result -/

theorem one_sub_sq_nonneg_of_abs_le {D : ℝ} (h : |D| ≤ 1) : 0 ≤ 1 - D * D := by
  have h1 := abs_le.1 h
  nlinarith [h1.1, h1.2]

/-- The elbow angle returned by the solver has cosine `D` and sine
`sqrt (1 - D^2)`. -/
theorem cos_sin_elbow {D : ℝ} (h : |D| ≤ 1) :
    Real.cos (atan2 (Real.sqrt (1 - D * D)) D) = D ∧
      Real.sin (atan2 (Real.sqrt (1 - D * D)) D) = Real.sqrt (1 - D * D) := by
  apply cos_sin_atan2_of_unit
  rw [Real.mul_self_sqrt (one_sub_sq_nonneg_of_abs_le h)]
  ring

/-- Rotating the vector `(a, b)`, whose length is that of `(x, y)`, by the angle
of `(x, y)` minus its own angle gives `(x, y)`. -/
theorem rotate_to_target {x y a b : ℝ} (hab : a * a + b * b = x * x + y * y) :
    a * Real.cos (atan2 y x - atan2 b a) - b * Real.sin (atan2 y x - atan2 b a) = x ∧
      a * Real.sin (atan2 y x - atan2 b a) + b * Real.cos (atan2 y x - atan2 b a) = y := by
  have hA := hypot_mul_cos_atan2 b a
  have hB := hypot_mul_sin_atan2 b a
  have hX := hypot_mul_cos_atan2 y x
  have hY := hypot_mul_sin_atan2 y x
  rw [hab] at hA hB
  have hnn : (0 : ℝ) ≤ x * x + y * y := add_nonneg (mul_self_nonneg x) (mul_self_nonneg y)
  have hrr := Real.mul_self_sqrt hnn
  generalize Real.sqrt (x * x + y * y) = r at hA hB hX hY hrr
  rw [Real.cos_sub, Real.sin_sub]
  generalize Real.cos (atan2 y x) = cp at hX ⊢
  generalize Real.sin (atan2 y x) = sp at hY ⊢
  generalize Real.cos (atan2 b a) = cb at hA ⊢
  generalize Real.sin (atan2 b a) = sb at hB ⊢
  by_cases hr : r = 0
  · subst hr
    simp only [zero_mul] at hA hB hX hY
    subst hA hB hX hY
    simp
  · constructor
    · apply mul_left_cancel₀ hr
      linear_combination (a * cp - b * sp) * hA + (a * sp + b * cp) * hB + cp * hab
        - cp * hrr + r * hX
    · apply mul_left_cancel₀ hr
      linear_combination (a * sp + b * cp) * hA + (b * sp - a * cp) * hB + sp * hab
        - sp * hrr + r * hY

theorem forwardKinematics_eq (q1 q2 : ℝ) :
    forwardKinematics q1 q2 =
      ⟨(ROBOT_CONFIG.l1 + ROBOT_CONFIG.l2 * Real.cos q2) * Real.cos q1
          - (ROBOT_CONFIG.l2 * Real.sin q2) * Real.sin q1,
        (ROBOT_CONFIG.l1 + ROBOT_CONFIG.l2 * Real.cos q2) * Real.sin q1
          + (ROBOT_CONFIG.l2 * Real.sin q2) * Real.cos q1⟩ := by
  simp only [forwardKinematics, Real.cos_add, Real.sin_add, Point.mk.injEq]
  constructor <;> ring

/-- Forward kinematics of the angles computed after the guard `|D| ≤ 1` is the
target point. -/
theorem forwardKinematics_solution {x y : ℝ} (h : |ikD x y| ≤ 1) :
    forwardKinematics
      (atan2 y x -
        atan2 (ROBOT_CONFIG.l2 * Real.sin (atan2 (Real.sqrt (1 - ikD x y * ikD x y)) (ikD x y)))
          (ROBOT_CONFIG.l1 +
            ROBOT_CONFIG.l2 * Real.cos (atan2 (Real.sqrt (1 - ikD x y * ikD x y)) (ikD x y))))
      (atan2 (Real.sqrt (1 - ikD x y * ikD x y)) (ikD x y)) = ⟨x, y⟩ := by
  obtain ⟨hc, hs⟩ := cos_sin_elbow h
  have hsq := Real.mul_self_sqrt (one_sub_sq_nonneg_of_abs_le h)
  have hD : 0.0288 * ikD x y = x * x + y * y - 0.0288 := by
    rw [ikD_eq]; field_simp
  rw [forwardKinematics_eq, hc, hs]
  have hab : (ROBOT_CONFIG.l1 + ROBOT_CONFIG.l2 * ikD x y) *
        (ROBOT_CONFIG.l1 + ROBOT_CONFIG.l2 * ikD x y) +
      (ROBOT_CONFIG.l2 * Real.sqrt (1 - ikD x y * ikD x y)) *
        (ROBOT_CONFIG.l2 * Real.sqrt (1 - ikD x y * ikD x y)) = x * x + y * y := by
    simp only [ROBOT_CONFIG.l1, ROBOT_CONFIG.l2]
    linear_combination (0.0144 : ℝ) * hsq + hD
  obtain ⟨h1, h2⟩ := rotate_to_target hab
  rw [h1, h2]

/-! ## Samples of `generateTrajectory` (exact reading) -/

theorem normalizedTime_sampleTime {ti tf : ℝ} (h : ti ≠ tf) (i : ℕ) :
    normalizedTime (sampleTime ti tf i) ti tf = (i : ℝ) / 100 := by
  have h2 : tf - ti ≠ 0 := sub_ne_zero.2 (Ne.symm h)
  simp only [normalizedTime, sampleTime, timeSteps]
  field_simp
  ring

theorem jointAt_sampleTime (current qd : ℝ) {ti tf : ℝ} (h : ti ≠ tf) (i : ℕ) :
    jointAt current qd ti tf (sampleTime ti tf i) =
      current + (qd - current) * blend ((i : ℝ) / 100) := by
  rw [jointAt, normalizedTime_sampleTime h]

theorem blend_zero : blend 0 = 0 := by
  norm_num [blend]

theorem blend_one : blend 1 = 1 := by
  norm_num [blend]

/-! ## Derivatives of the blend polynomial -/

theorem hasDerivAt_blend (s : ℝ) :
    HasDerivAt blend (30 * s ^ 2 - 60 * s ^ 3 + 30 * s ^ 4) s := by
  have h3 := ((hasDerivAt_id s).pow 3).const_mul (10 : ℝ)
  have h4 := ((hasDerivAt_id s).pow 4).const_mul (15 : ℝ)
  have h5 := ((hasDerivAt_id s).pow 5).const_mul (6 : ℝ)
  have h := (h3.sub h4).add h5
  exact h.congr_deriv (by simp only [id]; norm_num; ring)

theorem deriv_blend : deriv blend = fun s => 30 * s ^ 2 - 60 * s ^ 3 + 30 * s ^ 4 :=
  funext fun s => (hasDerivAt_blend s).deriv

theorem hasDerivAt_deriv_blend (s : ℝ) :
    HasDerivAt (deriv blend) (60 * s - 180 * s ^ 2 + 120 * s ^ 3) s := by
  rw [deriv_blend]
  have h2 := ((hasDerivAt_id s).pow 2).const_mul (30 : ℝ)
  have h3 := ((hasDerivAt_id s).pow 3).const_mul (60 : ℝ)
  have h4 := ((hasDerivAt_id s).pow 4).const_mul (30 : ℝ)
  have h := (h2.sub h3).add h4
  exact h.congr_deriv (by simp only [id]; norm_num; ring)

theorem deriv_deriv_blend :
    deriv (deriv blend) = fun s => 60 * s - 180 * s ^ 2 + 120 * s ^ 3 :=
  funext fun s => (hasDerivAt_deriv_blend s).deriv

/-- Chain rule for a function of the normalised time. -/
theorem hasDerivAt_comp_normalizedTime {f g : ℝ → ℝ} (hf : ∀ s, HasDerivAt f (g s) s)
    (c k ti tf t : ℝ) :
    HasDerivAt (fun t => c + k * f (normalizedTime t ti tf))
      (0 + k / (tf - ti) * g (normalizedTime t ti tf)) t := by
  have hn : HasDerivAt (fun t => normalizedTime t ti tf) (1 / (tf - ti)) t := by
    have h := ((hasDerivAt_id t).sub_const ti).div_const (tf - ti)
    exact h
  have h := (((hf (normalizedTime t ti tf)).comp t hn).const_mul k).const_add c
  exact h.congr_deriv (by ring)

theorem deriv_jointAt (current qd ti tf : ℝ) :
    deriv (jointAt current qd ti tf) =
      fun t => 0 + (qd - current) / (tf - ti) * deriv blend (normalizedTime t ti tf) := by
  funext t
  have h := hasDerivAt_comp_normalizedTime (f := blend) (g := deriv blend)
    (fun s => (hasDerivAt_blend s).differentiableAt.hasDerivAt) current (qd - current) ti tf t
  exact h.deriv

theorem deriv_deriv_jointAt (current qd ti tf : ℝ) :
    deriv (deriv (jointAt current qd ti tf)) =
      fun t => 0 + (qd - current) / (tf - ti) / (tf - ti) *
        deriv (deriv blend) (normalizedTime t ti tf) := by
  funext t
  rw [deriv_jointAt]
  have h := hasDerivAt_comp_normalizedTime (f := deriv blend) (g := deriv (deriv blend))
    (fun s => (hasDerivAt_deriv_blend s).differentiableAt.hasDerivAt) 0
    ((qd - current) / (tf - ti)) ti tf t
  exact h.deriv

theorem normalizedTime_start (ti tf : ℝ) : normalizedTime ti ti tf = 0 := by
  simp [normalizedTime]

theorem normalizedTime_end {ti tf : ℝ} (h : ti ≠ tf) : normalizedTime tf ti tf = 1 := by
  have h2 : tf - ti ≠ 0 := sub_ne_zero.2 (Ne.symm h)
  simp [normalizedTime, h2]

/-! ## The two scenario points -/

theorem isPointReachable_home : isPointReachable 0.14 0.14 := by
  rw [isPointReachable_iff_sq]
  norm_num

theorem not_isPointReachable_one_one : ¬ isPointReachable 1 1 := by
  rw [isPointReachable_iff_sq]
  norm_num

/-! ## Main results: rejected moves -/

/-- C3: every rejected move leaves the arm state unchanged.  If a coordinate is
`NaN`, or the point fails `isPointReachable`, or `inverseKinematics` returns
`null`, then `robotState` after `moveToPosition` equals `robotState` before,
and the call is not an accepted move. -/
theorem moveToPosition_rejected (xd yd : Option ℝ) (s : RobotState)
    (h : xd = none ∨ yd = none ∨
      ∃ x y, xd = some x ∧ yd = some y ∧
        (¬ isPointReachable x y ∨ inverseKinematics x y = none)) :
    (moveToPosition xd yd s).2 = s ∧ (moveToPosition xd yd s).1 ≠ MoveOutcome.moved := by
  rcases h with h | h | ⟨x, y, hx, hy, h⟩
  · subst h
    simp [moveToPosition]
  · subst h
    cases xd <;> simp [moveToPosition]
  · subst hx hy
    by_cases hr : isPointReachable x y
    · rcases h with h | h
      · exact absurd hr h
      · simp [moveToPosition, hr, h]
    · simp [moveToPosition, hr]

/-- Witness for C3: the target `(1.0, 1.0)` from the initial state. -/
theorem moveToPosition_rejected_witness :
    ¬ isPointReachable 1 1 ∧
      (moveToPosition (some 1) (some 1) robotState).2 = robotState ∧
      (moveToPosition (some 1) (some 1) robotState).1 ≠ MoveOutcome.moved :=
  ⟨not_isPointReachable_one_one,
    moveToPosition_rejected (some 1) (some 1) robotState
      (Or.inr (Or.inr ⟨1, 1, rfl, rfl, Or.inl not_isPointReachable_one_one⟩))⟩

/-! ## Main results: the blend polynomial -/

/-- C8: the blend polynomial `h(s) = 10 s^3 - 15 s^4 + 6 s^5` has `h(0) = 0`,
`h(1) = 1`, `h'(0) = h'(1) = 0` and `h''(0) = h''(1) = 0`; hence each joint
trajectory `q(t) = q_start + (q_target - q_start) * h((t - ti)/(tf - ti))`
starts at `q_start`, ends at `q_target`, and has zero velocity and zero
acceleration at `t = ti` and at `t = tf`. -/
theorem blend_boundary_conditions (current qd ti tf : ℝ) (h : ti ≠ tf) :
    (∀ n : ℝ, blend n = 10 * n ^ 3 - 15 * n ^ 4 + 6 * n ^ 5) ∧
      blend 0 = 0 ∧ blend 1 = 1 ∧
      deriv blend 0 = 0 ∧ deriv blend 1 = 0 ∧
      deriv (deriv blend) 0 = 0 ∧ deriv (deriv blend) 1 = 0 ∧
      jointAt current qd ti tf ti = current ∧ jointAt current qd ti tf tf = qd ∧
      deriv (jointAt current qd ti tf) ti = 0 ∧ deriv (jointAt current qd ti tf) tf = 0 ∧
      deriv (deriv (jointAt current qd ti tf)) ti = 0 ∧
      deriv (deriv (jointAt current qd ti tf)) tf = 0 := by
  have d0 : deriv blend 0 = 0 := by rw [deriv_blend]; norm_num
  have d1 : deriv blend 1 = 0 := by rw [deriv_blend]; norm_num
  have dd0 : deriv (deriv blend) 0 = 0 := by rw [deriv_deriv_blend]; norm_num
  have dd1 : deriv (deriv blend) 1 = 0 := by rw [deriv_deriv_blend]; norm_num
  refine ⟨fun n => rfl, blend_zero, blend_one, d0, d1, dd0, dd1, ?_, ?_, ?_, ?_, ?_, ?_⟩
  · simp [jointAt, normalizedTime_start, blend_zero]
  · simp [jointAt, normalizedTime_end h, blend_one]
  · simp [deriv_jointAt, normalizedTime_start, d0]
  · simp [deriv_jointAt, normalizedTime_end h, d1]
  · simp [deriv_deriv_jointAt, normalizedTime_start, dd0]
  · simp [deriv_deriv_jointAt, normalizedTime_end h, dd1]

/-- Witness for C8: a joint moving from `π / 2` to `0` between `ti = 0` and
`tf = 20`. -/
theorem blend_boundary_conditions_witness :
    (0 : ℝ) ≠ 20 ∧
      deriv (jointAt (Real.pi / 2) 0 0 20) 0 = 0 ∧ deriv (jointAt (Real.pi / 2) 0 0 20) 20 = 0 ∧
      deriv (deriv (jointAt (Real.pi / 2) 0 0 20)) 0 = 0 ∧
      deriv (deriv (jointAt (Real.pi / 2) 0 0 20)) 20 = 0 :=
  have h := blend_boundary_conditions (Real.pi / 2) 0 0 20 (by norm_num)
  ⟨by norm_num, h.2.2.2.2.2.2.2.2.2.1, h.2.2.2.2.2.2.2.2.2.2.1, h.2.2.2.2.2.2.2.2.2.2.2.1,
    h.2.2.2.2.2.2.2.2.2.2.2.2⟩

/-! ## The initial state -/

theorem forwardKinematics_of_inverseKinematics {x y : ℝ} {a : JointAngles}
    (h : inverseKinematics x y = some a) : forwardKinematics a.q1 a.q2 = ⟨x, y⟩ := by
  have hD : |ikD x y| ≤ 1 := (inverseKinematics_ne_none_iff x y).1 (by rw [h]; simp)
  rw [inverseKinematics_of_abs_le hD] at h
  cases h
  exact forwardKinematics_solution hD

theorem not_currentPosInvariant_robotState : ¬ currentPosInvariant robotState := by
  rintro ⟨hx, -⟩
  simp only [robotState, add_zero, Real.cos_pi_div_two, mul_zero] at hx
  norm_num at hx

/-- C6 fails as stated: the initial state, the state left by the `load`
listener and the state after a rejected move all have `currentPos = (0.14, 0.14)`
with joint angles `(π / 2, 0)`, whose forward kinematics is `(0, 0.24)`. -/
theorem currentPosInvariant_fails_initially :
    ¬ currentPosInvariant (run robotState []) ∧
      ¬ currentPosInvariant (loadHandler robotState) ∧
      ¬ currentPosInvariant (run robotState [Command.move (some 1) (some 1)]) := by
  refine ⟨not_currentPosInvariant_robotState, not_currentPosInvariant_robotState, ?_⟩
  have h : run robotState [Command.move (some 1) (some 1)] = robotState := by
    simp [run, step, moveToPosition, not_isPointReachable_one_one]
  rw [h]
  exact not_currentPosInvariant_robotState

/-! ## The home move -/

theorem cartesianTrail_generateTrajectory (s : RobotState) (qd1 qd2 ti tf : ℝ) :
    cartesianTrail (generateTrajectory s qd1 qd2 ti tf) =
      (List.range (timeSteps + 1)).map fun i =>
        forwardKinematics (jointAt s.q1 qd1 ti tf (sampleTime ti tf i))
          (jointAt s.q2 qd2 ti tf (sampleTime ti tf i)) := by
  simp only [cartesianTrail, generateTrajectory, List.zipWith_map, List.zipWith_same,
    List.map_map]
  rfl

theorem jointAt_self (q ti tf t : ℝ) : jointAt q q ti tf t = q := by
  simp [jointAt]

/-- The trail generated when the arm already is at the target angles. -/
theorem cartesianTrail_at_target (s : RobotState) (ti tf : ℝ) :
    cartesianTrail (generateTrajectory s s.q1 s.q2 ti tf) =
      List.replicate 101 (forwardKinematics s.q1 s.q2) := by
  rw [cartesianTrail_generateTrajectory]
  simp only [jointAt_self]
  rw [List.map_const']
  simp [timeSteps]

/-- The home move is always accepted. -/
theorem goToHomePosition_eq (s : RobotState) :
    ∃ a : JointAngles, inverseKinematics 0.14 0.14 = some a ∧
      forwardKinematics a.q1 a.q2 = ROBOT_CONFIG.initialPos ∧
      goToHomePosition s =
        (MoveOutcome.moved,
          { q1 := a.q1, q2 := a.q2, currentPos := ROBOT_CONFIG.initialPos,
            trajectory := cartesianTrail (generateTrajectory s a.q1 a.q2 0 20) }) := by
  have hD : |ikD 0.14 0.14| ≤ 1 :=
    (abs_ikD_le_one_iff _ _).2 ((isPointReachable_iff_sq _ _).1 isPointReachable_home)
  have hik := inverseKinematics_of_abs_le hD
  refine ⟨_, hik, forwardKinematics_solution hD, ?_⟩
  simp only [goToHomePosition, moveToPosition, ROBOT_CONFIG.initialPos, isPointReachable_home,
    not_true_eq_false, if_false, hik]

theorem goToHomePosition_twice (s : RobotState) :
    (goToHomePosition (goToHomePosition s).2).2.q1 = (goToHomePosition s).2.q1 ∧
      (goToHomePosition (goToHomePosition s).2).2.q2 = (goToHomePosition s).2.q2 ∧
      (goToHomePosition (goToHomePosition s).2).2.currentPos = (goToHomePosition s).2.currentPos ∧
      (goToHomePosition (goToHomePosition s).2).2.trajectory =
        List.replicate 101 ROBOT_CONFIG.initialPos := by
  obtain ⟨a, hik, hfk, h1⟩ := goToHomePosition_eq s
  obtain ⟨b, hik2, -, h2⟩ := goToHomePosition_eq (goToHomePosition s).2
  rw [hik] at hik2
  cases hik2
  rw [h2, h1]
  refine ⟨rfl, rfl, rfl, ?_⟩
  have h := cartesianTrail_at_target
    { q1 := a.q1, q2 := a.q2, currentPos := ROBOT_CONFIG.initialPos,
      trajectory := cartesianTrail (generateTrajectory s a.q1 a.q2 0 20) } 0 20
  simp only [hfk] at h
  exact h

theorem RobotState.eq_of_fields {s t : RobotState} (h1 : s.q1 = t.q1) (h2 : s.q2 = t.q2)
    (h3 : s.currentPos = t.currentPos) (h4 : s.trajectory = t.trajectory) : s = t := by
  cases s
  cases t
  simp_all

/-- The first point of the trail stored by the home move is the
forward-kinematics image of the angles the arm had before the move. -/
theorem goToHomePosition_trajectory_head (s : RobotState) :
    (goToHomePosition s).2.trajectory[0]? = some (forwardKinematics s.q1 s.q2) := by
  obtain ⟨a, -, -, h⟩ := goToHomePosition_eq s
  have h020 : (0 : ℝ) ≠ 20 := by norm_num
  have hpos : 0 < timeSteps + 1 := Nat.succ_pos _
  rw [h]
  simp only [cartesianTrail_generateTrajectory, List.getElem?_map, List.getElem?_range hpos,
    Option.map_some', jointAt_sampleTime _ _ h020]
  simp [blend_zero]

/-- C7 fails as stated: from the initial state the second home move stores a
different trail than the first one (the first trail starts at the forward
kinematics of `(π / 2, 0)`, the second at the home point), so the two states
differ. -/
theorem goToHomePosition_not_idempotent :
    (goToHomePosition (goToHomePosition robotState).2).2 ≠ (goToHomePosition robotState).2 := by
  intro h
  have h1 := goToHomePosition_trajectory_head robotState
  have h2 := (goToHomePosition_twice robotState).2.2.2
  rw [← h, h2] at h1
  simp only [List.getElem?_replicate, ROBOT_CONFIG.initialPos, forwardKinematics, robotState,
    add_zero, Real.cos_pi_div_two, mul_zero] at h1
  norm_num at h1

/-- C7 as amended: after two home moves in a row the joint angles and
`currentPos` are those after the first one, while the stored trail is replaced
by the one generated from the home pose to itself (101 copies of the home
point); from the second call on the whole state no longer changes. -/
theorem goToHomePosition_idempotent_pose (s : RobotState) :
    (goToHomePosition (goToHomePosition s).2).2.q1 = (goToHomePosition s).2.q1 ∧
      (goToHomePosition (goToHomePosition s).2).2.q2 = (goToHomePosition s).2.q2 ∧
      (goToHomePosition (goToHomePosition s).2).2.currentPos =
        (goToHomePosition s).2.currentPos ∧
      (goToHomePosition (goToHomePosition s).2).2.trajectory =
        List.replicate 101 ROBOT_CONFIG.initialPos ∧
      (goToHomePosition (goToHomePosition (goToHomePosition s).2).2).2 =
        (goToHomePosition (goToHomePosition s).2).2 := by
  obtain ⟨h1, h2, h3, h4⟩ := goToHomePosition_twice s
  obtain ⟨k1, k2, k3, k4⟩ := goToHomePosition_twice (goToHomePosition s).2
  exact ⟨h1, h2, h3, h4, RobotState.eq_of_fields k1 k2 k3 (k4.trans h4.symm)⟩

/-! ## Inverse kinematics of a forward-kinematics point -/

theorem ikD_forwardKinematics (q1 q2 : ℝ) :
    ikD (forwardKinematics q1 q2).x (forwardKinematics q1 q2).y = Real.cos q2 := by
  rw [ikD_eq, forwardKinematics_eq]
  simp only [ROBOT_CONFIG.l1, ROBOT_CONFIG.l2]
  have h1 := Real.sin_sq_add_cos_sq q1
  have h2 := Real.sin_sq_add_cos_sq q2
  rw [div_eq_iff (by norm_num)]
  linear_combination
    (0.0144 * (1 + 2 * Real.cos q2 + Real.cos q2 ^ 2 + Real.sin q2 ^ 2)) * h1 + 0.0144 * h2

/-- The elbow angle recovered from `D = cos q2` is `q2` itself when
`0 ≤ q2 ≤ π`. -/
theorem atan2_elbow {q2 : ℝ} (h0 : 0 ≤ q2) (hpi : q2 ≤ Real.pi) :
    atan2 (Real.sqrt (1 - Real.cos q2 * Real.cos q2)) (Real.cos q2) = q2 := by
  have hs : 0 ≤ Real.sin q2 := Real.sin_nonneg_of_nonneg_of_le_pi h0 hpi
  have h1 : 1 - Real.cos q2 * Real.cos q2 = Real.sin q2 * Real.sin q2 := by
    linear_combination -Real.sin_sq_add_cos_sq q2
  rw [h1, Real.sqrt_mul_self hs]
  have h := atan2_polar (r := 1) (θ := q2) one_pos ⟨by linarith [Real.pi_pos], hpi⟩
  simpa using h

/-- The angle subtracted by the solver is half the elbow angle when
`0 ≤ q2 < π` (both links have the same length). -/
theorem atan2_wrist {q2 : ℝ} (h0 : 0 ≤ q2) (hpi : q2 < Real.pi) :
    atan2 (ROBOT_CONFIG.l2 * Real.sin q2) (ROBOT_CONFIG.l1 + ROBOT_CONFIG.l2 * Real.cos q2) =
      q2 / 2 := by
  have hc : 0 < Real.cos (q2 / 2) :=
    Real.cos_pos_of_mem_Ioo ⟨by linarith [Real.pi_pos], by linarith⟩
  have hr : 0 < 0.24 * Real.cos (q2 / 2) := by positivity
  have h := atan2_polar (r := 0.24 * Real.cos (q2 / 2)) (θ := q2 / 2) hr
    ⟨by linarith [Real.pi_pos], by linarith⟩
  have hq : q2 = 2 * (q2 / 2) := by ring
  have hsin : ROBOT_CONFIG.l2 * Real.sin q2 = 0.24 * Real.cos (q2 / 2) * Real.sin (q2 / 2) := by
    conv_lhs => rw [hq, Real.sin_two_mul]
    simp only [ROBOT_CONFIG.l2]
    ring
  have hcos : ROBOT_CONFIG.l1 + ROBOT_CONFIG.l2 * Real.cos q2 =
      0.24 * Real.cos (q2 / 2) * Real.cos (q2 / 2) := by
    conv_lhs => rw [hq, Real.cos_two_mul]
    simp only [ROBOT_CONFIG.l1, ROBOT_CONFIG.l2]
    ring
  rw [hsin, hcos, h]

theorem forwardKinematics_sub_two_mul (A B : ℝ) :
    forwardKinematics (A - B) (2 * B) =
      ⟨0.24 * Real.cos B * Real.cos A, 0.24 * Real.cos B * Real.sin A⟩ := by
  have h : A - B + 2 * B = A + B := by ring
  simp only [forwardKinematics, ROBOT_CONFIG.l1, ROBOT_CONFIG.l2, Point.mk.injEq]
  rw [h, Real.cos_sub, Real.cos_add, Real.sin_sub, Real.sin_add]
  constructor <;> ring

/-- Polar form of the forward-kinematics point. -/
theorem forwardKinematics_polar (q1 q2 : ℝ) :
    forwardKinematics q1 q2 =
      ⟨0.24 * Real.cos (q2 / 2) * Real.cos (q1 + q2 / 2),
        0.24 * Real.cos (q2 / 2) * Real.sin (q1 + q2 / 2)⟩ := by
  have h := forwardKinematics_sub_two_mul (q1 + q2 / 2) (q2 / 2)
  have e1 : q1 + q2 / 2 - q2 / 2 = q1 := by ring
  have e2 : 2 * (q2 / 2) = q2 := by ring
  rw [e1, e2] at h
  exact h

theorem atan2_forwardKinematics {q1 q2 : ℝ} (h0 : 0 ≤ q2) (hpi : q2 < Real.pi)
    (hlo : -Real.pi < q1 + q2 / 2) (hhi : q1 + q2 / 2 ≤ Real.pi) :
    atan2 (forwardKinematics q1 q2).y (forwardKinematics q1 q2).x = q1 + q2 / 2 := by
  have hc : 0 < Real.cos (q2 / 2) :=
    Real.cos_pos_of_mem_Ioo ⟨by linarith [Real.pi_pos], by linarith⟩
  have hr : 0 < 0.24 * Real.cos (q2 / 2) := by positivity
  rw [forwardKinematics_polar]
  exact atan2_polar hr ⟨hlo, hhi⟩

/-- Inverse kinematics of a forward-kinematics point with `0 ≤ q2 ≤ π`: the
solver does not fail, its elbow angle is `q2`, and its shoulder angle is `q1`
when `q2 < π` and `-π < q1 + q2 / 2 ≤ π`. -/
theorem inverseKinematics_forwardKinematics_aux (q1 q2 : ℝ) (h0 : 0 ≤ q2)
    (hpi : q2 ≤ Real.pi) :
    ∃ a : JointAngles,
      inverseKinematics (forwardKinematics q1 q2).x (forwardKinematics q1 q2).y = some a ∧
        a.q2 = q2 ∧
        forwardKinematics a.q1 a.q2 = forwardKinematics q1 q2 ∧
        (q2 < Real.pi → -Real.pi < q1 + q2 / 2 → q1 + q2 / 2 ≤ Real.pi → a.q1 = q1) := by
  have hD := ikD_forwardKinematics q1 q2
  have habs : |ikD (forwardKinematics q1 q2).x (forwardKinematics q1 q2).y| ≤ 1 := by
    rw [hD]; exact Real.abs_cos_le_one q2
  have hik := inverseKinematics_of_abs_le habs
  refine ⟨_, hik, ?_, forwardKinematics_of_inverseKinematics hik, ?_⟩
  · simp only [hD]
    exact atan2_elbow h0 hpi
  · intro hlt hlo hhi
    simp only [hD, atan2_elbow h0 hpi, atan2_wrist h0 hlt, atan2_forwardKinematics h0 hlt hlo hhi]
    ring

/-! ## Numerical bounds for the home pose -/

/-- Taylor bound for the cosine to sixth order, with the remainder of the
exponential series. -/
theorem cos_taylor_bound {x : ℝ} (hx : |x| ≤ 1) :
    |Real.cos x - (1 - x ^ 2 / 2 + x ^ 4 / 24 - x ^ 6 / 720)| ≤ |x| ^ 8 * (9 / 322560) := by
  have hxI : Complex.abs ((x : ℂ) * Complex.I) ≤ 1 := by simpa using hx
  have hb := Complex.exp_bound hxI (n := 8) (by norm_num)
  have hsum : ∑ m ∈ Finset.range 8, ((x : ℂ) * Complex.I) ^ m / (m.factorial : ℂ) =
      ((1 - x ^ 2 / 2 + x ^ 4 / 24 - x ^ 6 / 720 : ℝ) : ℂ) +
        ((x - x ^ 3 / 6 + x ^ 5 / 120 - x ^ 7 / 5040 : ℝ) : ℂ) * Complex.I := by
    simp only [Finset.sum_range_succ, Finset.sum_range_zero, Nat.factorial]
    push_cast
    linear_combination
      ((x : ℂ) ^ 2 / 2 + (x : ℂ) ^ 3 * Complex.I / 6 + (x : ℂ) ^ 4 / 24 * (Complex.I ^ 2 - 1)
        + (x : ℂ) ^ 5 * Complex.I / 120 * (Complex.I ^ 2 - 1)
        + (x : ℂ) ^ 6 / 720 * (Complex.I ^ 4 - Complex.I ^ 2 + 1)
        + (x : ℂ) ^ 7 * Complex.I / 5040 * (Complex.I ^ 4 - Complex.I ^ 2 + 1)) * Complex.I_sq
  have hre : (Complex.exp ((x : ℂ) * Complex.I) -
      ∑ m ∈ Finset.range 8, ((x : ℂ) * Complex.I) ^ m / (m.factorial : ℂ)).re =
      Real.cos x - (1 - x ^ 2 / 2 + x ^ 4 / 24 - x ^ 6 / 720) := by
    rw [hsum, Complex.sub_re, Complex.exp_ofReal_mul_I_re, Complex.add_re, Complex.ofReal_re,
      Complex.re_ofReal_mul, Complex.I_re, mul_zero, add_zero]
  have habs : Complex.abs ((x : ℂ) * Complex.I) = |x| := by simp
  calc |Real.cos x - (1 - x ^ 2 / 2 + x ^ 4 / 24 - x ^ 6 / 720)|
      = |(Complex.exp ((x : ℂ) * Complex.I) -
          ∑ m ∈ Finset.range 8, ((x : ℂ) * Complex.I) ^ m / (m.factorial : ℂ)).re| := by
        rw [hre]
    _ ≤ Complex.abs (Complex.exp ((x : ℂ) * Complex.I) -
          ∑ m ∈ Finset.range 8, ((x : ℂ) * Complex.I) ^ m / (m.factorial : ℂ)) :=
        Complex.abs_re_le_abs _
    _ ≤ Complex.abs ((x : ℂ) * Complex.I) ^ 8 *
          (((Nat.succ 8 : ℕ) : ℝ) * ((Nat.factorial 8 : ℝ) * ((8 : ℕ) : ℝ))⁻¹) := hb
    _ = |x| ^ 8 * (9 / 322560) := by
        rw [habs]
        norm_num [Nat.factorial]

theorem cos_lower : (13 / 36 : ℝ) < Real.cos 1.2013 := by
  have hx : |(0.60065 : ℝ)| ≤ 1 := by rw [abs_of_pos] <;> norm_num
  have h := (abs_le.1 (cos_taylor_bound hx)).1
  rw [abs_of_pos (by norm_num : (0 : ℝ) < 0.60065)] at h
  have hL : (0.824965 : ℝ) ≤ Real.cos 0.60065 := by
    norm_num at h ⊢
    linarith
  have h2 : (1.2013 : ℝ) = 2 * 0.60065 := by norm_num
  rw [h2, Real.cos_two_mul]
  nlinarith [hL]

theorem cos_upper : Real.cos 1.20135 < (13 / 36 : ℝ) := by
  have hx : |(0.600675 : ℝ)| ≤ 1 := by rw [abs_of_pos] <;> norm_num
  have h := (abs_le.1 (cos_taylor_bound hx)).2
  rw [abs_of_pos (by norm_num : (0 : ℝ) < 0.600675)] at h
  have hU : Real.cos 0.600675 ≤ (0.824956 : ℝ) := by
    norm_num at h ⊢
    linarith
  have h0 : 0 ≤ Real.cos 0.600675 :=
    Real.cos_nonneg_of_mem_Icc ⟨by linarith [Real.pi_gt_three], by linarith [Real.pi_gt_three]⟩
  have h2 : (1.20135 : ℝ) = 2 * 0.600675 := by norm_num
  rw [h2, Real.cos_two_mul]
  nlinarith [hU, h0]

theorem ikD_home : ikD 0.14 0.14 = 13 / 36 := by
  rw [ikD_eq]
  norm_num

theorem atan2_home : atan2 0.14 0.14 = Real.pi / 4 := by
  have hr : (0 : ℝ) < 0.14 * Real.sqrt 2 := by positivity
  have hpi := Real.pi_pos
  have h := atan2_polar (r := 0.14 * Real.sqrt 2) (θ := Real.pi / 4) hr
    ⟨by linarith, by linarith⟩
  have h2 : Real.sqrt 2 * Real.sqrt 2 = 2 := Real.mul_self_sqrt (by norm_num)
  have e : 0.14 * Real.sqrt 2 * (Real.sqrt 2 / 2) = 0.14 := by
    linear_combination (0.07 : ℝ) * h2
  rw [Real.sin_pi_div_four, Real.cos_pi_div_four, e] at h
  exact h

/-- The solution returned for the home point `(0.14, 0.14)`: the elbow angle
has cosine `13 / 36` and lies strictly between `1.2013` and `1.20135`, the
subtracted angle is half of it, and the shoulder angle is `π / 4` minus that
half. -/
theorem inverseKinematics_home :
    ∃ a : JointAngles, inverseKinematics 0.14 0.14 = some a ∧
      Real.cos a.q2 = 13 / 36 ∧
      atan2 (ROBOT_CONFIG.l2 * Real.sin a.q2) (ROBOT_CONFIG.l1 + ROBOT_CONFIG.l2 * Real.cos a.q2) =
        a.q2 / 2 ∧
      a.q1 = Real.pi / 4 - a.q2 / 2 ∧
      1.2013 < a.q2 ∧ a.q2 < 1.20135 := by
  have habs : |ikD 0.14 0.14| ≤ 1 := by
    rw [ikD_home, abs_of_pos] <;> norm_num
  have hik := inverseKinematics_of_abs_le habs
  obtain ⟨hc, hs⟩ := cos_sin_elbow habs
  have hmem := atan2_mem_Ioc (Real.sqrt (1 - ikD 0.14 0.14 * ikD 0.14 0.14)) (ikD 0.14 0.14)
  have hs0 : 0 ≤ Real.sin (atan2 (Real.sqrt (1 - ikD 0.14 0.14 * ikD 0.14 0.14)) (ikD 0.14 0.14)) := by
    rw [hs]; exact Real.sqrt_nonneg _
  refine ⟨_, hik, ?_⟩
  simp only []
  generalize atan2 (Real.sqrt (1 - ikD 0.14 0.14 * ikD 0.14 0.14)) (ikD 0.14 0.14) = q
    at hc hs0 hmem
  rw [ikD_home] at hc
  have h0 : 0 ≤ q := by
    by_contra hneg
    have := Real.sin_neg_of_neg_of_neg_pi_lt (not_le.1 hneg) hmem.1
    linarith
  have hlt : q < Real.pi := by
    rcases lt_or_eq_of_le hmem.2 with h | h
    · exact h
    · rw [h, Real.cos_pi] at hc
      norm_num at hc
  have hw := atan2_wrist h0 hlt
  refine ⟨hc, hw, ?_, ?_, ?_⟩
  · rw [hw, atan2_home]
  · by_contra hle
    have h1 := Real.cos_le_cos_of_nonneg_of_le_pi h0
      (by linarith [Real.pi_gt_three] : (1.2013 : ℝ) ≤ Real.pi) (not_lt.1 hle)
    have h2 := cos_lower
    linarith
  · by_contra hle
    have h1 := Real.cos_le_cos_of_nonneg_of_le_pi (by norm_num : (0 : ℝ) ≤ 1.20135)
      hlt.le (not_lt.1 hle)
    have h2 := cos_upper
    linarith

/-- C10 fails as stated: for the target `(0.14, 0.14)` the solver's `q2` is
not `1.2011`, its `q1` is not `0.1658` and the subtracted term is not `0.6196`
to four decimal places. -/
theorem inverseKinematics_home_spec_values_fail :
    ∃ a : JointAngles, inverseKinematics 0.14 0.14 = some a ∧
      ¬ |a.q2 - 1.2011| ≤ 0.00005 ∧
      ¬ |a.q1 - 0.1658| ≤ 0.00005 ∧
      ¬ |atan2 (ROBOT_CONFIG.l2 * Real.sin a.q2)
          (ROBOT_CONFIG.l1 + ROBOT_CONFIG.l2 * Real.cos a.q2) - 0.6196| ≤ 0.00005 := by
  obtain ⟨a, hik, -, hw, h1, hlo, hhi⟩ := inverseKinematics_home
  have hpi := Real.pi_gt_d6
  refine ⟨a, hik, ?_, ?_, ?_⟩
  · intro h
    have := (abs_le.1 h).2
    norm_num at this hlo
    linarith
  · intro h
    have := (abs_le.1 h).2
    rw [h1] at this
    norm_num at this hhi hpi
    linarith
  · intro h
    have := (abs_le.1 h).1
    rw [hw] at this
    norm_num at this hhi
    linarith

/-- C10 as amended: for the target `(0.14, 0.14)` the solver succeeds with
`D = 13 / 36` and returns `q2 = 1.2013` and `q1 = 0.1847` to four decimal
places, where the subtracted term is `q2 / 2 = 0.6007` to four decimal places
and `atan2(0.14, 0.14) = π / 4`. -/
theorem inverseKinematics_home_values :
    ikD 0.14 0.14 = 13 / 36 ∧
      atan2 0.14 0.14 = Real.pi / 4 ∧
      ∃ a : JointAngles, inverseKinematics 0.14 0.14 = some a ∧
        |a.q2 - 1.2013| ≤ 0.00005 ∧
        |a.q1 - 0.1847| ≤ 0.00005 ∧
        |atan2 (ROBOT_CONFIG.l2 * Real.sin a.q2)
            (ROBOT_CONFIG.l1 + ROBOT_CONFIG.l2 * Real.cos a.q2) - 0.6007| ≤ 0.00005 ∧
        Real.cos a.q2 = 13 / 36 ∧
        a.q1 = atan2 0.14 0.14
          - atan2 (ROBOT_CONFIG.l2 * Real.sin a.q2)
              (ROBOT_CONFIG.l1 + ROBOT_CONFIG.l2 * Real.cos a.q2) := by
  obtain ⟨a, hik, hc, hw, h1, hlo, hhi⟩ := inverseKinematics_home
  have hpi1 := Real.pi_gt_d6
  have hpi2 := Real.pi_lt_d6
  refine ⟨ikD_home, atan2_home, a, hik, ?_, ?_, ?_, hc, ?_⟩
  · rw [abs_le]
    norm_num at hlo hhi ⊢
    constructor <;> linarith
  · rw [h1, abs_le]
    norm_num at hlo hhi hpi1 hpi2 ⊢
    constructor <;> linarith
  · rw [hw, abs_le]
    norm_num at hlo hhi ⊢
    constructor <;> linarith
  · rw [hw, atan2_home, h1]

/-! # Double precision

## Rounding to the nearest integer and to the nearest double -/

theorem roundHalfEven_spec (u : ℚ) :
    |u - roundHalfEven u| ≤ 1 / 2 ∧
      (|u - roundHalfEven u| = 1 / 2 → (roundHalfEven u) % 2 = 0) := by
  have h0 : 0 ≤ u - ⌊u⌋ := sub_nonneg.2 (Int.floor_le u)
  have h1 : u - ⌊u⌋ < 1 := by linarith [Int.lt_floor_add_one u]
  unfold roundHalfEven
  split_ifs with ha hb hc
  · refine ⟨by rw [abs_of_nonneg h0]; linarith, fun h => ?_⟩
    rw [abs_of_nonneg h0] at h
    linarith
  · have e : u - ((⌊u⌋ + 1 : ℤ) : ℚ) = -(1 - (u - ⌊u⌋)) := by push_cast; ring
    rw [e, abs_neg, abs_of_pos (by linarith)]
    refine ⟨by linarith, fun h => ?_⟩
    linarith
  · exact ⟨by rw [abs_of_nonneg h0]; linarith, fun _ => hc⟩
  · have e : u - ((⌊u⌋ + 1 : ℤ) : ℚ) = -(1 - (u - ⌊u⌋)) := by push_cast; ring
    rw [e, abs_neg, abs_of_pos (by linarith)]
    refine ⟨by linarith, fun _ => ?_⟩
    omega

theorem roundHalfEven_unique {u : ℚ} {m : ℤ} (h : |u - m| ≤ 1 / 2)
    (he : |u - m| = 1 / 2 → m % 2 = 0) : roundHalfEven u = m := by
  obtain ⟨h1, h2⟩ := roundHalfEven_spec u
  have ha := abs_le.1 h
  have hb := abs_le.1 h1
  have hd : ((roundHalfEven u - m : ℤ) : ℚ) ≤ 1 := by push_cast; linarith [ha.1, hb.2]
  have hd' : (-1 : ℚ) ≤ ((roundHalfEven u - m : ℤ) : ℚ) := by push_cast; linarith [ha.2, hb.1]
  have hd1 : roundHalfEven u - m ≤ 1 := by exact_mod_cast hd
  have hd2 : -1 ≤ roundHalfEven u - m := by exact_mod_cast hd'
  rcases (by omega : roundHalfEven u - m = 1 ∨ roundHalfEven u - m = -1 ∨ roundHalfEven u = m)
    with hq | hq | hq
  · exfalso
    have hq' : ((roundHalfEven u : ℤ) : ℚ) = m + 1 := by
      have : roundHalfEven u = m + 1 := by omega
      rw [this]; push_cast; ring
    have e1 : u - m = 1 / 2 := by linarith [ha.2, hb.1]
    have e2 : u - roundHalfEven u = -(1 / 2) := by linarith
    have p1 := he (by rw [e1]; norm_num)
    have p2 := h2 (by rw [e2]; norm_num)
    omega
  · exfalso
    have hq' : ((roundHalfEven u : ℤ) : ℚ) = m - 1 := by
      have : roundHalfEven u = m - 1 := by omega
      rw [this]; push_cast; ring
    have e1 : u - m = -(1 / 2) := by linarith [ha.1, hb.2]
    have e2 : u - roundHalfEven u = 1 / 2 := by linarith
    have p1 := he (by rw [e1]; norm_num)
    have p2 := h2 (by rw [e2]; norm_num)
    omega
  · exact hq

theorem roundHalfEven_intCast (n : ℤ) : roundHalfEven (n : ℚ) = n :=
  roundHalfEven_unique (by simp) (fun h => by simp at h)

theorem roundHalfEven_of_abs_lt {u : ℚ} {m : ℤ} (h : |u - m| < 1 / 2) : roundHalfEven u = m :=
  roundHalfEven_unique h.le (fun he => absurd he (ne_of_lt h))

theorem roundHalfEven_neg (u : ℚ) : roundHalfEven (-u) = -roundHalfEven u := by
  obtain ⟨h1, h2⟩ := roundHalfEven_spec u
  have e : -u - ((-roundHalfEven u : ℤ) : ℚ) = -(u - roundHalfEven u) := by push_cast; ring
  apply roundHalfEven_unique
  · rw [e, abs_neg]; exact h1
  · rw [e, abs_neg]
    intro h
    have := h2 h
    omega

theorem roundHalfEven_mono {u v : ℚ} (h : u ≤ v) : roundHalfEven u ≤ roundHalfEven v := by
  by_contra hlt
  have hlt' : roundHalfEven v + 1 ≤ roundHalfEven u := by omega
  have hq : ((roundHalfEven v : ℤ) : ℚ) + 1 ≤ roundHalfEven u := by exact_mod_cast hlt'
  have hu := abs_le.1 (roundHalfEven_spec u).1
  have hv := abs_le.1 (roundHalfEven_spec v).1
  have huv : u = v := by linarith [hu.1, hv.2]
  subst huv
  omega


theorem two_zpow_pos (z : ℤ) : (0 : ℚ) < 2 ^ z := by positivity

theorem int_log_two_eq {r : ℚ} {k : ℤ} (h1 : 2 ^ k ≤ r) (h2 : r < 2 ^ (k + 1)) :
    Int.log 2 r = k := by
  have hr : 0 < r := lt_of_lt_of_le (two_zpow_pos k) h1
  have a : k ≤ Int.log 2 r :=
    (Int.zpow_le_iff_le_log (R := ℚ) (b := 2) (by norm_num) hr).1 (by simpa using h1)
  have b : Int.log 2 r < k + 1 :=
    (Int.lt_zpow_iff_log_lt (R := ℚ) (b := 2) (by norm_num) hr).1 (by simpa using h2)
  omega

theorem two_zpow_log_le {r : ℚ} (hr : 0 < r) : (2 : ℚ) ^ Int.log 2 r ≤ r := by
  simpa using Int.zpow_log_le_self (R := ℚ) (b := 2) (by norm_num) hr

theorem lt_two_zpow_log_succ (r : ℚ) : r < (2 : ℚ) ^ (Int.log 2 r + 1) := by
  simpa using Int.lt_zpow_succ_log_self (R := ℚ) (b := 2) (by norm_num) r

theorem int_log_two_lt {r : ℚ} {k : ℤ} (hr : 0 < r) (h : r < 2 ^ k) : Int.log 2 r < k :=
  (Int.lt_zpow_iff_log_lt (R := ℚ) (b := 2) (by norm_num) hr).1 (by simpa using h)

theorem le_ulpExponent (x : ℚ) : -1074 ≤ ulpExponent x := le_max_right _ _

theorem log_sub_le_ulpExponent (x : ℚ) : Int.log 2 |x| - 52 ≤ ulpExponent x := le_max_left _ _

theorem ulpExponent_neg (x : ℚ) : ulpExponent (-x) = ulpExponent x := by
  simp [ulpExponent]

theorem roundDouble_zero : roundDouble 0 = 0 := by
  have h := roundHalfEven_intCast 0
  simp only [Int.cast_zero] at h
  simp [roundDouble, h]

theorem roundDouble_neg (x : ℚ) : roundDouble (-x) = -roundDouble x := by
  simp only [roundDouble, ulpExponent_neg, neg_div, roundHalfEven_neg]
  push_cast
  ring

theorem roundDouble_sub_eq (x : ℚ) :
    roundDouble x - x =
      ((roundHalfEven (x / 2 ^ ulpExponent x) : ℚ) - x / 2 ^ ulpExponent x) *
        2 ^ ulpExponent x := by
  have h := (two_zpow_pos (ulpExponent x)).ne'
  simp only [roundDouble]
  field_simp

/-- Rounding moves a number by at most half a unit in the last place. -/
theorem abs_roundDouble_sub_le (x : ℚ) :
    |roundDouble x - x| ≤ 2 ^ ulpExponent x / 2 := by
  rw [roundDouble_sub_eq, abs_mul, abs_of_pos (two_zpow_pos _), abs_sub_comm]
  have h := (roundHalfEven_spec (x / 2 ^ ulpExponent x)).1
  have hp := two_zpow_pos (ulpExponent x)
  nlinarith [h, hp]

theorem roundDouble_nonneg {x : ℚ} (hx : 0 ≤ x) : 0 ≤ roundDouble x := by
  have hp := two_zpow_pos (ulpExponent x)
  have h0 : (0 : ℚ) ≤ x / 2 ^ ulpExponent x := div_nonneg hx hp.le
  have h := roundHalfEven_mono h0
  have hz := roundHalfEven_intCast 0
  simp only [Int.cast_zero] at hz
  rw [hz] at h
  have hq : (0 : ℚ) ≤ roundHalfEven (x / 2 ^ ulpExponent x) := by exact_mod_cast h
  exact mul_nonneg hq hp.le

theorem roundDouble_nonpos {x : ℚ} (hx : x ≤ 0) : roundDouble x ≤ 0 := by
  have h := roundDouble_nonneg (neg_nonneg.2 hx)
  rw [roundDouble_neg] at h
  linarith

/-- A scaled number that is an integer is rounded to itself. -/
theorem roundDouble_of_scaled_int {x : ℚ} {n : ℤ} (h : x / 2 ^ ulpExponent x = n) :
    roundDouble x = x := by
  have hp := (two_zpow_pos (ulpExponent x)).ne'
  rw [roundDouble, h, roundHalfEven_intCast, ← h]
  field_simp

theorem zpow_sub_eq_natCast {s e : ℤ} (h : s ≤ e) :
    (2 : ℚ) ^ (e - s) = (((2 : ℤ) ^ (e - s).toNat : ℤ) : ℚ) := by
  have : e - s = ((e - s).toNat : ℤ) := (Int.toNat_of_nonneg (by omega)).symm
  conv_lhs => rw [this]
  push_cast
  rw [zpow_natCast]

theorem roundDouble_int_mul_of_lt (m e : ℤ) (hm : |m| < 2 ^ 53) (he : -1074 ≤ e) :
    roundDouble (m * 2 ^ e) = m * 2 ^ e := by
  by_cases hm0 : m = 0
  · simp [hm0, roundDouble_zero]
  have hpe := two_zpow_pos e
  have habs : |(m : ℚ) * 2 ^ e| = |(m : ℚ)| * 2 ^ e := by
    rw [abs_mul, abs_of_pos hpe]
  have hmq : |(m : ℚ)| < 2 ^ 53 := by
    have : ((|m| : ℤ) : ℚ) < ((2 ^ 53 : ℤ) : ℚ) := by exact_mod_cast hm
    simpa using this
  have hmpos : 0 < |(m : ℚ)| := abs_pos.2 (by exact_mod_cast hm0)
  have hlt : |(m : ℚ) * 2 ^ e| < 2 ^ (53 + e) := by
    rw [habs, zpow_add₀ (by norm_num : (2 : ℚ) ≠ 0)]
    have : ((2 : ℚ) ^ (53 : ℤ)) = 2 ^ 53 := by norm_num
    rw [this]
    exact mul_lt_mul_of_pos_right hmq hpe
  have hlog := int_log_two_lt (by rw [habs]; positivity) hlt
  have hs : ulpExponent ((m : ℚ) * 2 ^ e) ≤ e := by
    unfold ulpExponent
    exact max_le (by omega) he
  apply roundDouble_of_scaled_int (n := m * 2 ^ (e - ulpExponent ((m : ℚ) * 2 ^ e)).toNat)
  rw [mul_div_assoc, ← zpow_sub₀ (by norm_num : (2 : ℚ) ≠ 0), zpow_sub_eq_natCast hs]
  push_cast
  ring

/-- Numbers of the form `m * 2 ^ e` with `|m| ≤ 2 ^ 53` and `e ≥ -1074` are
left unchanged by rounding. -/
theorem roundDouble_int_mul (m e : ℤ) (hm : |m| ≤ 2 ^ 53) (he : -1074 ≤ e) :
    roundDouble (m * 2 ^ e) = m * 2 ^ e := by
  rcases lt_or_eq_of_le hm with h | h
  · exact roundDouble_int_mul_of_lt m e h he
  · have key : ∀ c : ℤ, |c| = 2 ^ 52 → roundDouble ((2 * c : ℤ) * 2 ^ e) = (2 * c : ℤ) * 2 ^ e := by
      intro c hc
      have h1 := roundDouble_int_mul_of_lt c (e + 1) (by rw [hc]; norm_num) (by omega)
      have e1 : ((2 * c : ℤ) : ℚ) * 2 ^ e = (c : ℚ) * 2 ^ (e + 1) := by
        rw [zpow_add₀ (by norm_num : (2 : ℚ) ≠ 0)]
        push_cast
        ring
      rw [e1, h1]
    have hc : ∃ c : ℤ, m = 2 * c ∧ |c| = 2 ^ 52 := by
      rcases abs_cases m with ⟨h1, -⟩ | ⟨h1, -⟩
      · exact ⟨2 ^ 52, by omega, by norm_num⟩
      · exact ⟨-2 ^ 52, by omega, by norm_num⟩
    obtain ⟨c, rfl, hc2⟩ := hc
    exact key c hc2


theorem two_pow_mul_zpow (n : ℕ) (t : ℤ) : (2 : ℚ) ^ n * 2 ^ t = 2 ^ ((n : ℤ) + t) := by
  rw [zpow_add₀ (by norm_num : (2 : ℚ) ≠ 0), zpow_natCast]

theorem abs_scaled_lt (x : ℚ) : |x / 2 ^ ulpExponent x| < 2 ^ 53 := by
  have hp := two_zpow_pos (ulpExponent x)
  rw [abs_div, abs_of_pos hp, div_lt_iff₀ hp]
  have h1 := lt_two_zpow_log_succ |x|
  have h2 : (2 : ℚ) ^ (Int.log 2 |x| + 1) ≤ 2 ^ 53 * 2 ^ ulpExponent x := by
    have e : (2 : ℚ) ^ 53 * 2 ^ ulpExponent x = 2 ^ (53 + ulpExponent x) := by
      rw [zpow_add₀ (by norm_num : (2 : ℚ) ≠ 0)]
      norm_num
    rw [e]
    apply zpow_le_zpow_right₀ (by norm_num)
    have := log_sub_le_ulpExponent x
    omega
  linarith

theorem abs_roundHalfEven_scaled_le (x : ℚ) :
    |roundHalfEven (x / 2 ^ ulpExponent x)| ≤ 2 ^ 53 := by
  have h := abs_lt.1 (abs_scaled_lt x)
  have e : ((2 : ℚ) ^ 53) = (((2 : ℤ) ^ 53 : ℤ) : ℚ) := by norm_num
  have h1 := roundHalfEven_mono h.2.le
  have h2 := roundHalfEven_mono h.1.le
  rw [e, roundHalfEven_intCast] at h1
  have e2 : -((2 : ℚ) ^ 53) = (((-(2 : ℤ) ^ 53 : ℤ)) : ℚ) := by norm_num
  rw [e2, roundHalfEven_intCast] at h2
  exact abs_le.2 ⟨h2, h1⟩

/-- Rounding twice is rounding once. -/
theorem roundDouble_idem (x : ℚ) : roundDouble (roundDouble x) = roundDouble x :=
  roundDouble_int_mul _ _ (abs_roundHalfEven_scaled_le x) (le_ulpExponent x)

theorem ulpExponent_mono {x y : ℚ} (hx : 0 < x) (h : x ≤ y) : ulpExponent x ≤ ulpExponent y := by
  have hy : 0 < y := lt_of_lt_of_le hx h
  unfold ulpExponent
  rw [abs_of_pos hx, abs_of_pos hy]
  have := Int.log_mono_right (b := 2) hx h
  exact max_le_max (by omega) le_rfl

theorem roundDouble_mono_of_pos {x y : ℚ} (hx : 0 < x) (h : x ≤ y) :
    roundDouble x ≤ roundDouble y := by
  have hy : 0 < y := lt_of_lt_of_le hx h
  rcases lt_or_eq_of_le (ulpExponent_mono hx h) with hs | hs
  · -- different binades: a power of two lies between the two results
    have hlx := log_sub_le_ulpExponent x
    have hty : ulpExponent y = Int.log 2 |y| - 52 := by
      have h1 := le_ulpExponent x
      unfold ulpExponent at hs ⊢
      rcases max_cases (Int.log 2 |y| - 52) (-1074) with ⟨h2, -⟩ | ⟨h2, -⟩
      · exact h2
      · rw [h2] at hs
        have := le_max_right (Int.log 2 |x| - 52) (-1074)
        omega
    rw [abs_of_pos hx] at hlx
    rw [abs_of_pos hy] at hty
    have hpx := two_zpow_pos (ulpExponent x)
    have hpy := two_zpow_pos (ulpExponent y)
    -- lower bound for the larger one
    have hY : (2 : ℚ) ^ Int.log 2 y ≤ roundDouble y := by
      have h1 : (2 : ℚ) ^ 52 ≤ y / 2 ^ ulpExponent y := by
        rw [le_div_iff₀ hpy]
        have e : (2 : ℚ) ^ 52 * 2 ^ ulpExponent y = 2 ^ Int.log 2 y := by
          rw [two_pow_mul_zpow, hty]
          congr 1
          push_cast
          ring
        rw [e]
        exact two_zpow_log_le hy
      have e52 : ((2 : ℚ) ^ 52) = (((2 : ℤ) ^ 52 : ℤ) : ℚ) := by norm_num
      have h2 := roundHalfEven_mono h1
      rw [e52, roundHalfEven_intCast] at h2
      have h3 : ((2 : ℚ) ^ 52) ≤ roundHalfEven (y / 2 ^ ulpExponent y) := by
        rw [e52]; exact_mod_cast h2
      have e : (2 : ℚ) ^ Int.log 2 y = 2 ^ 52 * 2 ^ ulpExponent y := by
        rw [two_pow_mul_zpow, hty]
        congr 1
        push_cast
        ring
      rw [e, roundDouble]
      exact mul_le_mul_of_nonneg_right h3 hpy.le
    -- upper bound for the smaller one
    have hX : roundDouble x ≤ (2 : ℚ) ^ Int.log 2 y := by
      have hsl : ulpExponent x ≤ Int.log 2 y := by omega
      have h1 : x / 2 ^ ulpExponent x ≤ 2 ^ (Int.log 2 y - ulpExponent x) := by
        rw [div_le_iff₀ hpx, ← zpow_add₀ (by norm_num : (2 : ℚ) ≠ 0)]
        have e : Int.log 2 y - ulpExponent x + ulpExponent x = Int.log 2 y := by ring
        rw [e]
        have h2 := lt_two_zpow_log_succ x
        have h3 : (2 : ℚ) ^ (Int.log 2 x + 1) ≤ 2 ^ Int.log 2 y :=
          zpow_le_zpow_right₀ (by norm_num) (by omega)
        linarith
      rw [zpow_sub_eq_natCast hsl] at h1
      have h2 := roundHalfEven_mono h1
      rw [roundHalfEven_intCast] at h2
      have h3 : (roundHalfEven (x / 2 ^ ulpExponent x) : ℚ) ≤
          (((2 : ℤ) ^ (Int.log 2 y - ulpExponent x).toNat : ℤ) : ℚ) := by exact_mod_cast h2
      rw [← zpow_sub_eq_natCast hsl] at h3
      have e : (2 : ℚ) ^ Int.log 2 y =
          2 ^ (Int.log 2 y - ulpExponent x) * 2 ^ ulpExponent x := by
        rw [← zpow_add₀ (by norm_num : (2 : ℚ) ≠ 0)]
        congr 1
        ring
      rw [e, roundDouble]
      exact mul_le_mul_of_nonneg_right h3 hpx.le
    exact hX.trans hY
  · -- same binade
    have hp := two_zpow_pos (ulpExponent y)
    simp only [roundDouble, hs]
    have h1 : x / 2 ^ ulpExponent y ≤ y / 2 ^ ulpExponent y :=
      div_le_div_of_nonneg_right h hp.le
    have h2 := roundHalfEven_mono h1
    have h3 : (roundHalfEven (x / 2 ^ ulpExponent y) : ℚ) ≤
        roundHalfEven (y / 2 ^ ulpExponent y) := by exact_mod_cast h2
    exact mul_le_mul_of_nonneg_right h3 hp.le

/-- Rounding is monotone. -/
theorem roundDouble_mono {x y : ℚ} (h : x ≤ y) : roundDouble x ≤ roundDouble y := by
  rcases lt_trichotomy 0 x with hx | hx | hx
  · exact roundDouble_mono_of_pos hx h
  · subst hx
    rw [roundDouble_zero]
    exact roundDouble_nonneg h
  · rcases le_or_lt 0 y with hy | hy
    · exact (roundDouble_nonpos hx.le).trans (roundDouble_nonneg hy)
    · have h1 := roundDouble_mono_of_pos (neg_pos.2 hy) (neg_le_neg h)
      rw [roundDouble_neg, roundDouble_neg] at h1
      linarith

/-- Absolute rounding error below a power of two. -/
theorem abs_roundDouble_sub_le_of_lt {x : ℚ} {E : ℤ} (hx : |x| < 2 ^ (E + 1))
    (hE : -1022 ≤ E) : |roundDouble x - x| ≤ 2 ^ (E - 53) := by
  by_cases h0 : x = 0
  · subst h0
    rw [roundDouble_zero, sub_zero, abs_zero]
    positivity
  have hlog := int_log_two_lt (abs_pos.2 h0) hx
  have hs : ulpExponent x ≤ E - 52 := by
    unfold ulpExponent
    exact max_le (by omega) (by omega)
  have h1 := abs_roundDouble_sub_le x
  have h2 : (2 : ℚ) ^ ulpExponent x ≤ 2 ^ (E - 52) := zpow_le_zpow_right₀ (by norm_num) hs
  have e : (2 : ℚ) ^ (E - 52) = 2 * 2 ^ (E - 53) := by
    have : E - 52 = 1 + (E - 53) := by ring
    rw [this, zpow_add₀ (by norm_num : (2 : ℚ) ≠ 0)]
    norm_num
  linarith

/-- Evaluation of a rounding in the normal range: `k` is the binary exponent of
`x` and `m` the integer nearest to the scaled value. -/
theorem roundDouble_eq_of_near {x : ℚ} (k m : ℤ) (h1 : 2 ^ k ≤ |x|) (h2 : |x| < 2 ^ (k + 1))
    (hk : -1022 ≤ k) (hm : |x / 2 ^ (k - 52) - m| < 1 / 2) :
    roundDouble x = m * 2 ^ (k - 52) := by
  have hlog := int_log_two_eq h1 h2
  have hs : ulpExponent x = k - 52 := by
    unfold ulpExponent
    rw [hlog]
    exact max_eq_left (by omega)
  rw [roundDouble, hs, roundHalfEven_of_abs_lt hm]

/-! ## Evaluating roundings -/

theorem ulpExponent_eq_of_pos {x : ℚ} (k : ℤ) (hk : -1022 ≤ k) (h1 : 2 ^ k ≤ x)
    (h2 : x < 2 ^ (k + 1)) : ulpExponent x = k - 52 := by
  have hx : 0 < x := lt_of_lt_of_le (two_zpow_pos k) h1
  unfold ulpExponent
  rw [abs_of_pos hx, int_log_two_eq h1 h2]
  exact max_eq_left (by omega)

/-- Evaluation of a rounding of a positive number in the normal range: `k` is
the binary exponent of `x`, `m` the integer nearest to the scaled value. -/
theorem roundDouble_eval {x v : ℚ} (k m : ℤ) (hk : -1022 ≤ k) (h1 : 2 ^ k ≤ x)
    (h2 : x < 2 ^ (k + 1)) (h3 : ((m : ℚ) - 1 / 2) * 2 ^ (k - 52) < x)
    (h4 : x < ((m : ℚ) + 1 / 2) * 2 ^ (k - 52)) (hv : v = m * 2 ^ (k - 52)) :
    roundDouble x = v := by
  have hp := two_zpow_pos (k - 52)
  rw [hv, roundDouble, ulpExponent_eq_of_pos k hk h1 h2]
  congr 2
  apply roundHalfEven_of_abs_lt
  rw [abs_lt]
  constructor
  · rw [lt_sub_iff_add_lt, lt_div_iff₀ hp]
    linarith
  · rw [sub_lt_iff_lt_add, div_lt_iff₀ hp]
    linarith

/-- Evaluation of a rounding of a positive number that may lie half way between
two doubles: the even neighbour `m` is taken. -/
theorem roundDouble_eval_even {x v : ℚ} (k m : ℤ) (hk : -1022 ≤ k) (h1 : 2 ^ k ≤ x)
    (h2 : x < 2 ^ (k + 1)) (h3 : ((m : ℚ) - 1 / 2) * 2 ^ (k - 52) ≤ x)
    (h4 : x ≤ ((m : ℚ) + 1 / 2) * 2 ^ (k - 52)) (he : m % 2 = 0)
    (hv : v = m * 2 ^ (k - 52)) :
    roundDouble x = v := by
  have hp := two_zpow_pos (k - 52)
  rw [hv, roundDouble, ulpExponent_eq_of_pos k hk h1 h2]
  congr 2
  apply roundHalfEven_unique _ (fun _ => he)
  rw [abs_le]
  constructor
  · rw [le_sub_iff_add_le, le_div_iff₀ hp]
    linarith
  · rw [sub_le_iff_le_add, div_le_iff₀ hp]
    linarith

/-- Evaluation of a rounding of a negative number. -/
theorem roundDouble_eval_neg {x v : ℚ} (k m : ℤ) (hk : -1022 ≤ k) (h1 : 2 ^ k ≤ -x)
    (h2 : -x < 2 ^ (k + 1)) (h3 : ((m : ℚ) - 1 / 2) * 2 ^ (k - 52) < -x)
    (h4 : -x < ((m : ℚ) + 1 / 2) * 2 ^ (k - 52)) (hv : v = -(m * 2 ^ (k - 52))) :
    roundDouble x = v := by
  have h := roundDouble_eval k m hk h1 h2 h3 h4 rfl
  rw [roundDouble_neg] at h
  rw [hv, ← h, neg_neg]

/-! ## The boundary point `(0.24, 0)` -/

theorem roundDouble_024 : roundDouble (0.24) = 1080863910568919 / 4503599627370496 :=
  roundDouble_eval (-3) 8646911284551352 (by norm_num) (by norm_num) (by norm_num) (by norm_num)
    (by norm_num) (by norm_num)

theorem roundDouble_012 : roundDouble (0.12) = 1080863910568919 / 9007199254740992 :=
  roundDouble_eval (-4) 8646911284551352 (by norm_num) (by norm_num) (by norm_num) (by norm_num)
    (by norm_num) (by norm_num)

theorem ev_xx : roundDouble (1080863910568919 / 4503599627370496 * (1080863910568919 / 4503599627370496)) = 4150517416584649 / 72057594037927936 :=
  roundDouble_eval (-5) 8301034833169298 (by norm_num) (by norm_num) (by norm_num) (by norm_num)
    (by norm_num) (by norm_num)

theorem ev_xx_fix : roundDouble (4150517416584649 / 72057594037927936) = 4150517416584649 / 72057594037927936 :=
  roundDouble_eval (-5) 8301034833169298 (by norm_num) (by norm_num) (by norm_num) (by norm_num)
    (by norm_num) (by norm_num)

theorem ev_ll : roundDouble (1080863910568919 / 9007199254740992 * (1080863910568919 / 9007199254740992)) = 4150517416584649 / 288230376151711744 :=
  roundDouble_eval (-7) 8301034833169298 (by norm_num) (by norm_num) (by norm_num) (by norm_num)
    (by norm_num) (by norm_num)

theorem ev_s1 : roundDouble (4150517416584649 / 72057594037927936 - 4150517416584649 / 288230376151711744) = 3112888062438487 / 72057594037927936 :=
  roundDouble_eval_even (-5) 6225776124876974 (by norm_num) (by norm_num) (by norm_num) (by norm_num)
    (by norm_num) (by norm_num) (by norm_num)

theorem ev_s2 : roundDouble (3112888062438487 / 72057594037927936 - 4150517416584649 / 288230376151711744) = 8301034833169299 / 288230376151711744 :=
  roundDouble_eval (-6) 8301034833169299 (by norm_num) (by norm_num) (by norm_num) (by norm_num)
    (by norm_num) (by norm_num)

theorem ev_2l : roundDouble (2 * (1080863910568919 / 9007199254740992)) = 1080863910568919 / 4503599627370496 :=
  roundDouble_eval (-3) 8646911284551352 (by norm_num) (by norm_num) (by norm_num) (by norm_num)
    (by norm_num) (by norm_num)

theorem ev_den : roundDouble (1080863910568919 / 4503599627370496 * (1080863910568919 / 9007199254740992)) = 4150517416584649 / 144115188075855872 :=
  roundDouble_eval (-6) 8301034833169298 (by norm_num) (by norm_num) (by norm_num) (by norm_num)
    (by norm_num) (by norm_num)

theorem ev_D : roundDouble (8301034833169299 / 288230376151711744 / (4150517416584649 / 144115188075855872)) = 4503599627370497 / 4503599627370496 :=
  roundDouble_eval (0) 4503599627370497 (by norm_num) (by norm_num) (by norm_num) (by norm_num)
    (by norm_num) (by norm_num)

/-- Evaluation of `sqrtDouble` when the root is rounded down: `e` is the binary
exponent of `x`, `n` the integer part of the scaled argument and `k` its
integer square root. -/
theorem sqrtDouble_eval_down {x v : ℚ} (e : ℤ) (n k : ℕ) (h1 : 2 ^ e ≤ x)
    (h2 : x < 2 ^ (e + 1)) (hn : ⌊x / 4 ^ (e / 2 - 52)⌋₊ = n) (hk : k * k ≤ n)
    (hk2 : n < (k + 1) * (k + 1))
    (hlo : x / 4 ^ (e / 2 - 52) < ((k : ℚ) + 1 / 2) ^ 2)
    (hv : v = (k : ℚ) * 2 ^ (e / 2 - 52)) : sqrtDouble x = v := by
  have hx : 0 < x := lt_of_lt_of_le (two_zpow_pos e) h1
  have hs : Nat.sqrt n = k := (Nat.eq_sqrt.2 ⟨hk, hk2⟩).symm
  unfold sqrtDouble
  rw [if_neg (not_le.2 hx)]
  simp only [int_log_two_eq h1 h2, hn, hs, if_pos hlo]
  exact hv.symm

theorem sqrt_sq_024 :
    sqrtDouble (4150517416584649 / 72057594037927936) =
      1080863910568919 / 4503599627370496 := by
  apply sqrtDouble_eval_down (-5) 74769074762901515804403476463616 8646911284551352
  · norm_num
  · norm_num
  · rw [Nat.floor_eq_iff (by norm_num)]
    norm_num
  · norm_num
  · norm_num
  · norm_num
  · norm_num

theorem ev_l_sub_l :
    roundDouble (1080863910568919 / 9007199254740992 - 1080863910568919 / 9007199254740992) =
      0 := by
  rw [sub_self, roundDouble_zero]

theorem ev_l_add_l :
    roundDouble (1080863910568919 / 9007199254740992 + 1080863910568919 / 9007199254740992) =
      1080863910568919 / 4503599627370496 := by
  have h : (1080863910568919 / 9007199254740992 : ℚ) + 1080863910568919 / 9007199254740992 =
      2 * (1080863910568919 / 9007199254740992) := by ring
  rw [h, ev_2l]

namespace Double

theorem isPointReachable_boundary : isPointReachable (roundDouble 0.24) 0 := by
  simp only [isPointReachable, add, mul, sub, l1, l2, roundDouble_024, roundDouble_012,
    mul_zero, roundDouble_zero, add_zero, ev_xx, ev_xx_fix, sqrt_sq_024, ev_l_sub_l,
    ev_l_add_l]
  norm_num

theorem ikD_boundary : ikD (roundDouble 0.24) 0 = 4503599627370497 / 4503599627370496 := by
  simp only [ikD, add, mul, sub, div, l1, l2, roundDouble_024, roundDouble_012,
    mul_zero, roundDouble_zero, add_zero, ev_xx, ev_xx_fix, ev_ll, ev_s1, ev_s2,
    ev_2l, ev_den, ev_D]

theorem inverseKinematics_boundary (M : MathLibrary) :
    inverseKinematics M (roundDouble 0.24) 0 = none := by
  have h : 1 < |ikD (roundDouble 0.24) 0| := by
    rw [ikD_boundary, abs_of_pos (by norm_num)]
    norm_num
  exact if_pos h

theorem moveToPosition_boundary (M : MathLibrary) (s : RobotState) :
    moveToPosition M (some (roundDouble 0.24)) (some 0) s = (MoveOutcome.ikFailure, s) := by
  simp only [moveToPosition, isPointReachable_boundary, not_true_eq_false, if_false,
    inverseKinematics_boundary]

end Double

theorem ev_012_fix : roundDouble (1080863910568919 / 9007199254740992) = 1080863910568919 / 9007199254740992 :=
  roundDouble_eval (-4) 8646911284551352 (by norm_num) (by norm_num) (by norm_num) (by norm_num)
    (by norm_num) (by norm_num)

/-! ## Blend samples for the default times -/

theorem roundDouble_intCast (m : ℤ) (h : |m| ≤ 2 ^ 53) : roundDouble (m : ℚ) = m := by
  have := roundDouble_int_mul m 0 h (by norm_num)
  simpa using this

theorem roundDouble_one : roundDouble 1 = 1 := by
  have := roundDouble_intCast 1 (by norm_num)
  simpa using this

theorem roundDouble_twenty : roundDouble 20 = 20 := by
  have := roundDouble_intCast 20 (by norm_num)
  simpa using this

/-- Rounding error of a number below 32. -/
theorem abs_roundDouble_sub_le_of_lt_32 {x : ℚ} (hx : |x| < 32) :
    |roundDouble x - x| ≤ 1 / 2 ^ 49 := by
  have h := abs_roundDouble_sub_le_of_lt (x := x) (E := 4) (by norm_num; exact hx) (by norm_num)
  norm_num at h ⊢
  exact h

/-- Rounding error of a number below 2. -/
theorem abs_roundDouble_sub_le_of_lt_2 {x : ℚ} (hx : |x| < 2) :
    |roundDouble x - x| ≤ 1 / 2 ^ 53 := by
  have h := abs_roundDouble_sub_le_of_lt (x := x) (E := 0) (by norm_num; exact hx) (by norm_num)
  norm_num at h ⊢
  exact h

theorem roundDouble_mem_Icc {x a b : ℚ} (ha : roundDouble a = a) (hb : roundDouble b = b)
    (h1 : a ≤ x) (h2 : x ≤ b) : a ≤ roundDouble x ∧ roundDouble x ≤ b := by
  constructor
  · rw [← ha]; exact roundDouble_mono h1
  · rw [← hb]; exact roundDouble_mono h2

namespace Double

/-- The normalised time of sample `i` for the default times `ti = 0`, `tf = 20`. -/
theorem normalizedTime_sampleTime_default (i : ℕ) :
    normalizedTime (sampleTime 0 20 i) 0 20 =
      roundDouble (roundDouble (20 * roundDouble ((i : ℚ) / 100)) / 20) := by
  simp only [normalizedTime, sampleTime, add, sub, mul, div, timeSteps, sub_zero, zero_add,
    roundDouble_twenty, roundDouble_idem]
  norm_num

theorem normalizedTime_default_bounds {i : ℕ} (hi : i ≤ 100) :
    0 ≤ normalizedTime (sampleTime 0 20 i) 0 20 ∧
      normalizedTime (sampleTime 0 20 i) 0 20 ≤ 1 ∧
      |normalizedTime (sampleTime 0 20 i) 0 20 - (i : ℚ) / 100| ≤ 1 / 2 ^ 49 := by
  rw [normalizedTime_sampleTime_default]
  have hi0 : (0 : ℚ) ≤ (i : ℚ) / 100 := by positivity
  have hi1 : (i : ℚ) / 100 ≤ 1 := by
    have : (i : ℚ) ≤ 100 := by exact_mod_cast hi
    linarith
  obtain ⟨hx0, hx1⟩ := roundDouble_mem_Icc roundDouble_zero roundDouble_one hi0 hi1
  have hxe := abs_le.1 (abs_roundDouble_sub_le_of_lt_2 (x := (i : ℚ) / 100)
    (by rw [abs_of_nonneg hi0]; linarith))
  generalize roundDouble ((i : ℚ) / 100) = x at hx0 hx1 hxe
  obtain ⟨hy0, hy1⟩ := roundDouble_mem_Icc (x := 20 * x) roundDouble_zero roundDouble_twenty
    (by linarith) (by linarith)
  have hye := abs_le.1 (abs_roundDouble_sub_le_of_lt_32 (x := 20 * x)
    (by rw [abs_of_nonneg (by linarith)]; linarith))
  generalize roundDouble (20 * x) = y at hy0 hy1 hye
  obtain ⟨hn0, hn1⟩ := roundDouble_mem_Icc (x := y / 20) roundDouble_zero roundDouble_one
    (by linarith) (by linarith)
  have hne := abs_le.1 (abs_roundDouble_sub_le_of_lt_2 (x := y / 20)
    (by rw [abs_of_nonneg (by linarith)]; linarith))
  generalize roundDouble (y / 20) = n at hn0 hn1 hne
  refine ⟨hn0, hn1, ?_⟩
  rw [abs_le]
  norm_num at hxe hye hne ⊢
  constructor <;> linarith

theorem isDouble_normalizedTime_default {i : ℕ} (hi : i ≤ 100) :
    IsDouble (normalizedTime (sampleTime 0 20 i) 0 20) := by
  obtain ⟨h0, h1, -⟩ := normalizedTime_default_bounds hi
  refine ⟨?_, by rw [abs_of_nonneg h0]; exact lt_of_le_of_lt h1 (by norm_num)⟩
  rw [normalizedTime_sampleTime_default, roundDouble_idem]

theorem pow_mem_unit {n : ℚ} (h0 : 0 ≤ n) (h1 : n ≤ 1) (k : ℕ) : 0 ≤ n ^ k ∧ n ^ k ≤ 1 :=
  ⟨pow_nonneg h0 k, pow_le_one₀ h0 h1⟩

/-- The computed blend value is within `36 * 2 ^ (-49)` of the exact polynomial
when `Math.pow` is accurate. -/
theorem abs_blend_sub_blendExact_le (M : MathLibrary) (hM : M.PowAccurate) {n : ℚ}
    (hd : IsDouble n) (h0 : 0 ≤ n) (h1 : n ≤ 1) : |blend M n - blendExact n| ≤ 36 / 2 ^ 49 := by
  have hp3 := abs_le.1 (hM n 3 hd h0 h1 (by norm_num) (by norm_num))
  have hp4 := abs_le.1 (hM n 4 hd h0 h1 (by norm_num) (by norm_num))
  have hp5 := abs_le.1 (hM n 5 hd h0 h1 (by norm_num) (by norm_num))
  obtain ⟨a3, b3⟩ := pow_mem_unit h0 h1 3
  obtain ⟨a4, b4⟩ := pow_mem_unit h0 h1 4
  obtain ⟨a5, b5⟩ := pow_mem_unit h0 h1 5
  simp only [blend, blendExact, add, sub, mul]
  generalize M.pow n 3 = p3 at hp3
  generalize M.pow n 4 = p4 at hp4
  generalize M.pow n 5 = p5 at hp5
  generalize n ^ 3 = c3 at hp3 a3 b3
  generalize n ^ 4 = c4 at hp4 a4 b4
  generalize n ^ 5 = c5 at hp5 a5 b5
  norm_num at hp3 hp4 hp5
  have eA := abs_le.1 (abs_roundDouble_sub_le_of_lt_32 (x := 10 * p3)
    (by rw [abs_lt]; constructor <;> linarith))
  have eB := abs_le.1 (abs_roundDouble_sub_le_of_lt_32 (x := 15 * p4)
    (by rw [abs_lt]; constructor <;> linarith))
  have eC := abs_le.1 (abs_roundDouble_sub_le_of_lt_32 (x := 6 * p5)
    (by rw [abs_lt]; constructor <;> linarith))
  generalize roundDouble (10 * p3) = A at eA
  generalize roundDouble (15 * p4) = B at eB
  generalize roundDouble (6 * p5) = C at eC
  norm_num at eA eB eC
  have eD := abs_le.1 (abs_roundDouble_sub_le_of_lt_32 (x := A - B)
    (by rw [abs_lt]; constructor <;> linarith))
  generalize roundDouble (A - B) = D at eD
  norm_num at eD
  have eR := abs_le.1 (abs_roundDouble_sub_le_of_lt_32 (x := D + C)
    (by rw [abs_lt]; constructor <;> linarith))
  generalize roundDouble (D + C) = R at eR
  norm_num at eR
  rw [abs_le]
  norm_num
  constructor <;> linarith

theorem abs_blendExact_sub_le {n a : ℚ} (hn0 : 0 ≤ n) (hn1 : n ≤ 1) (ha0 : 0 ≤ a)
    (ha1 : a ≤ 1) : |blendExact n - blendExact a| ≤ 60 * |n - a| := by
  have e : blendExact n - blendExact a =
      (n - a) * (10 * (n ^ 2 + n * a + a ^ 2) - 15 * (n ^ 3 + n ^ 2 * a + n * a ^ 2 + a ^ 3)
        + 6 * (n ^ 4 + n ^ 3 * a + n ^ 2 * a ^ 2 + n * a ^ 3 + a ^ 4)) := by
    simp only [blendExact]
    ring
  have m : ∀ i j : ℕ, 0 ≤ n ^ i * a ^ j ∧ n ^ i * a ^ j ≤ 1 := fun i j =>
    ⟨mul_nonneg (pow_nonneg hn0 i) (pow_nonneg ha0 j),
      mul_le_one₀ (pow_le_one₀ hn0 hn1) (pow_nonneg ha0 j) (pow_le_one₀ ha0 ha1)⟩
  have m20 := m 2 0
  have m11 := m 1 1
  have m02 := m 0 2
  have m30 := m 3 0
  have m21 := m 2 1
  have m12 := m 1 2
  have m03 := m 0 3
  have m40 := m 4 0
  have m31 := m 3 1
  have m22 := m 2 2
  have m13 := m 1 3
  have m04 := m 0 4
  simp only [pow_zero, pow_one, mul_one, one_mul] at m20 m11 m02 m30 m21 m12 m03 m40 m31 m22 m13 m04
  rw [e, abs_mul, mul_comm]
  apply mul_le_mul_of_nonneg_right _ (abs_nonneg _)
  rw [abs_le]
  constructor <;> linarith [m20.1, m20.2, m11.1, m11.2, m02.1, m02.2, m30.1, m30.2, m21.1, m21.2,
    m12.1, m12.2, m03.1, m03.2, m40.1, m40.2, m31.1, m31.2, m22.1, m22.2, m13.1, m13.2, m04.1,
    m04.2]

theorem blendExact_gap {i : ℕ} (hi : i < 100) :
    blendExact ((i : ℚ) / 100) + 9 / 1000000 ≤ blendExact (((i + 1 : ℕ) : ℚ) / 100) := by
  interval_cases i <;> norm_num [blendExact]

/-- For the default times the computed blend values increase with the sample
index when `Math.pow` is accurate. -/
theorem blend_sample_lt (M : MathLibrary) (hM : M.PowAccurate) {i : ℕ} (hi : i < 100) :
    blend M (normalizedTime (sampleTime 0 20 i) 0 20) <
      blend M (normalizedTime (sampleTime 0 20 (i + 1)) 0 20) := by
  obtain ⟨a0, a1, ae⟩ := normalizedTime_default_bounds (Nat.le_of_lt hi)
  obtain ⟨b0, b1, be⟩ := normalizedTime_default_bounds (Nat.succ_le_of_lt hi)
  have hi0 : (0 : ℚ) ≤ (i : ℚ) / 100 := by positivity
  have hi1 : (i : ℚ) / 100 ≤ 1 := by
    have : (i : ℚ) ≤ 100 := by exact_mod_cast (Nat.le_of_lt hi)
    linarith
  have hj0 : (0 : ℚ) ≤ ((i + 1 : ℕ) : ℚ) / 100 := by positivity
  have hj1 : ((i + 1 : ℕ) : ℚ) / 100 ≤ 1 := by
    have : ((i + 1 : ℕ) : ℚ) ≤ 100 := by exact_mod_cast (Nat.succ_le_of_lt hi)
    linarith
  have ea := abs_le.1 (abs_blend_sub_blendExact_le M hM
    (isDouble_normalizedTime_default (Nat.le_of_lt hi)) a0 a1)
  have eb := abs_le.1 (abs_blend_sub_blendExact_le M hM
    (isDouble_normalizedTime_default (Nat.succ_le_of_lt hi)) b0 b1)
  have la := abs_le.1 ((abs_blendExact_sub_le a0 a1 hi0 hi1).trans
    (mul_le_mul_of_nonneg_left ae (by norm_num)))
  have lb := abs_le.1 ((abs_blendExact_sub_le b0 b1 hj0 hj1).trans
    (mul_le_mul_of_nonneg_left be (by norm_num)))
  have g := blendExact_gap hi
  obtain ⟨ea1, ea2⟩ := ea
  obtain ⟨eb1, eb2⟩ := eb
  obtain ⟨la1, la2⟩ := la
  obtain ⟨lb1, lb2⟩ := lb
  norm_num at ea1 ea2 eb1 eb2 la1 la2 lb1 lb2
  push_cast at g lb1 lb2
  linarith

theorem blend_sample_mono (M : MathLibrary) (hM : M.PowAccurate) {i j : ℕ} (hij : i ≤ j)
    (hj : j ≤ 100) :
    blend M (normalizedTime (sampleTime 0 20 i) 0 20) ≤
      blend M (normalizedTime (sampleTime 0 20 j) 0 20) := by
  induction j, hij using Nat.le_induction with
  | base => exact le_rfl
  | succ k _ ih =>
    exact (ih (Nat.le_of_succ_le hj)).trans (blend_sample_lt M hM (Nat.lt_of_succ_le hj)).le

theorem generateTrajectory_q1_getElem? (M : MathLibrary) (s : RobotState)
    (qd1 qd2 ti tf : ℚ) {i : ℕ} (hi : i ≤ timeSteps) :
    (generateTrajectory M s qd1 qd2 ti tf).q1[i]? =
      some (jointAt M s.q1 qd1 ti tf (sampleTime ti tf i)) := by
  have hi2 : i < timeSteps + 1 := Nat.lt_succ_of_le hi
  simp [generateTrajectory, trajectorySample, List.getElem?_range hi2]

theorem generateTrajectory_q2_getElem? (M : MathLibrary) (s : RobotState)
    (qd1 qd2 ti tf : ℚ) {i : ℕ} (hi : i ≤ timeSteps) :
    (generateTrajectory M s qd1 qd2 ti tf).q2[i]? =
      some (jointAt M s.q2 qd2 ti tf (sampleTime ti tf i)) := by
  have hi2 : i < timeSteps + 1 := Nat.lt_succ_of_le hi
  simp [generateTrajectory, trajectorySample, List.getElem?_range hi2]

theorem normalizedTime_first : normalizedTime (sampleTime 0 20 0) 0 20 = 0 := by
  rw [normalizedTime_sampleTime_default]
  simp [roundDouble_zero]

theorem normalizedTime_last : normalizedTime (sampleTime 0 20 100) 0 20 = 1 := by
  rw [normalizedTime_sampleTime_default]
  norm_num [roundDouble_one, roundDouble_twenty]

theorem blend_at_zero (M : MathLibrary) (hZ : M.PowExactAtZero) : blend M 0 = 0 := by
  simp [blend, add, sub, mul, hZ 3 (by norm_num) (by norm_num),
    hZ 4 (by norm_num) (by norm_num), hZ 5 (by norm_num) (by norm_num), roundDouble_zero]

theorem blend_at_one (M : MathLibrary) (hO : M.PowExactAtOne) : blend M 1 = 1 := by
  have h10 : roundDouble 10 = 10 := by
    simpa using roundDouble_intCast 10 (by norm_num)
  have h15 : roundDouble 15 = 15 := by
    simpa using roundDouble_intCast 15 (by norm_num)
  have h6 : roundDouble 6 = 6 := by
    simpa using roundDouble_intCast 6 (by norm_num)
  have h5 : roundDouble (-5) = -5 := by
    simpa using roundDouble_intCast (-5) (by norm_num)
  simp only [blend, add, sub, mul, hO 3 (by norm_num) (by norm_num),
    hO 4 (by norm_num) (by norm_num), hO 5 (by norm_num) (by norm_num), mul_one, h10, h15, h6]
  norm_num [h5, roundDouble_one]

/-- The first joint sample is the start angle. -/
theorem jointAt_first (M : MathLibrary) (hZ : M.PowExactAtZero) {current : ℚ} (qd : ℚ)
    (hc : roundDouble current = current) :
    jointAt M current qd 0 20 (sampleTime 0 20 0) = current := by
  simp [jointAt, normalizedTime_first, blend_at_zero M hZ, add, mul, roundDouble_zero, hc]

/-- The last joint sample is the start angle plus the rounded difference,
rounded. -/
theorem jointAt_last (M : MathLibrary) (hO : M.PowExactAtOne) (current qd : ℚ) :
    jointAt M current qd 0 20 (sampleTime 0 20 100) = add current (sub qd current) := by
  simp [jointAt, normalizedTime_last, blend_at_one M hO, add, mul, sub, roundDouble_idem]

/-- The joint value as a function of the blend value is monotone in the
direction of the move. -/
theorem joint_le_of_blend_le (current qd : ℚ) {h k : ℚ} (hk : h ≤ k) :
    (current ≤ qd →
        add current (mul (sub qd current) h) ≤ add current (mul (sub qd current) k)) ∧
      (qd ≤ current →
        add current (mul (sub qd current) k) ≤ add current (mul (sub qd current) h)) := by
  simp only [add, mul, sub]
  constructor
  · intro hd
    have hd0 : 0 ≤ roundDouble (qd - current) := roundDouble_nonneg (sub_nonneg.2 hd)
    exact roundDouble_mono (add_le_add_left
      (roundDouble_mono (mul_le_mul_of_nonneg_left hk hd0)) _)
  · intro hd
    have hd0 : roundDouble (qd - current) ≤ 0 := roundDouble_nonpos (sub_nonpos.2 hd)
    exact roundDouble_mono (add_le_add_left
      (roundDouble_mono (mul_le_mul_of_nonpos_left hk hd0)) _)

/-- Two consecutive joint samples for the default times: ordered like start and
target, and between the start angle and the last sample. -/
theorem jointAt_step_default (M : MathLibrary) (hM : M.PowAccurate) (hZ : M.PowExactAtZero)
    {current : ℚ} (qd : ℚ) (hc : roundDouble current = current) {i : ℕ} (hi : i < 100) :
    (current ≤ qd →
        jointAt M current qd 0 20 (sampleTime 0 20 i) ≤
            jointAt M current qd 0 20 (sampleTime 0 20 (i + 1)) ∧
          current ≤ jointAt M current qd 0 20 (sampleTime 0 20 i) ∧
          jointAt M current qd 0 20 (sampleTime 0 20 (i + 1)) ≤
            jointAt M current qd 0 20 (sampleTime 0 20 100)) ∧
      (qd ≤ current →
        jointAt M current qd 0 20 (sampleTime 0 20 (i + 1)) ≤
            jointAt M current qd 0 20 (sampleTime 0 20 i) ∧
          jointAt M current qd 0 20 (sampleTime 0 20 100) ≤
            jointAt M current qd 0 20 (sampleTime 0 20 (i + 1)) ∧
          jointAt M current qd 0 20 (sampleTime 0 20 i) ≤ current) := by
  have h01 := blend_sample_mono M hM (Nat.zero_le i) (Nat.le_of_lt hi)
  have h12 := blend_sample_mono M hM (Nat.le_succ i) (Nat.succ_le_of_lt hi)
  have h23 := blend_sample_mono M hM (Nat.succ_le_of_lt hi) (le_refl 100)
  have hfirst := jointAt_first M hZ qd hc
  constructor
  · intro hd
    refine ⟨(joint_le_of_blend_le current qd h12).1 hd, ?_, (joint_le_of_blend_le current qd h23).1 hd⟩
    have h := (joint_le_of_blend_le current qd h01).1 hd
    change jointAt M current qd 0 20 (sampleTime 0 20 0) ≤ _ at h
    rw [hfirst] at h
    exact h
  · intro hd
    refine ⟨(joint_le_of_blend_le current qd h12).2 hd, (joint_le_of_blend_le current qd h23).2 hd, ?_⟩
    have h := (joint_le_of_blend_le current qd h01).2 hd
    change _ ≤ jointAt M current qd 0 20 (sampleTime 0 20 0) at h
    rw [hfirst] at h
    exact h

end Double

/-! ## The move from `0.7` to `0.1` -/

theorem roundDouble_07 : roundDouble (0.7) = 3152519739159347 / 4503599627370496 :=
  roundDouble_eval (-1) 6305039478318694 (by norm_num) (by norm_num) (by norm_num) (by norm_num)
    (by norm_num) (by norm_num)

theorem roundDouble_01 : roundDouble (0.1) = 3602879701896397 / 36028797018963968 :=
  roundDouble_eval (-4) 7205759403792794 (by norm_num) (by norm_num) (by norm_num) (by norm_num)
    (by norm_num) (by norm_num)

theorem ev_diff : roundDouble (3602879701896397 / 36028797018963968 - 3152519739159347 / 4503599627370496) = -(5404319552844595 / 9007199254740992) :=
  roundDouble_eval_neg (-1) 5404319552844595 (by norm_num) (by norm_num) (by norm_num) (by norm_num)
    (by norm_num) (by norm_num)

theorem ev_last : roundDouble (3152519739159347 / 4503599627370496 + -(5404319552844595 / 9007199254740992)) = 900719925474099 / 9007199254740992 :=
  roundDouble_eval (-4) 7205759403792792 (by norm_num) (by norm_num) (by norm_num) (by norm_num)
    (by norm_num) (by norm_num)

theorem roundDouble_lit : roundDouble (0.09999999999999998) = 900719925474099 / 9007199254740992 :=
  roundDouble_eval (-4) 7205759403792792 (by norm_num) (by norm_num) (by norm_num) (by norm_num)
    (by norm_num) (by norm_num)

/-! ## Main results in double precision: the workspace boundary -/

/-- C1 (the program at the failing input): the boundary point `(0.24, 0)` passes
`isPointReachable`, yet the quotient `D` computed in double precision is
`1 + 2 ^ (-52)`, so `inverseKinematics` returns `null` for it whatever the
`Math` functions return. -/
theorem inverseKinematics_null_on_boundary :
    Double.isPointReachable (roundDouble 0.24) 0 ∧
      Double.ikD (roundDouble 0.24) 0 = 1 + 1 / 2 ^ 52 ∧
      ∀ M : MathLibrary, Double.inverseKinematics M (roundDouble 0.24) 0 = none := by
  refine ⟨Double.isPointReachable_boundary, ?_, Double.inverseKinematics_boundary⟩
  rw [Double.ikD_boundary]
  norm_num

/-- C2 (the program at the failing input): at `(0.24, 0)` the annulus test
`|l1 - l2| ≤ distance ≤ l1 + l2` holds in double precision while `|D| ≤ 1`
fails, and `moveToPosition` takes the inverse-kinematics failure branch and
leaves the state as it is. -/
theorem moveToPosition_ikFailure_on_boundary :
    (|Double.sub Double.l1 Double.l2| ≤
          sqrtDouble (Double.add (Double.mul (roundDouble 0.24) (roundDouble 0.24))
            (Double.mul 0 0)) ∧
        sqrtDouble (Double.add (Double.mul (roundDouble 0.24) (roundDouble 0.24))
            (Double.mul 0 0)) ≤ Double.add Double.l1 Double.l2) ∧
      ¬ |Double.ikD (roundDouble 0.24) 0| ≤ 1 ∧
      ∀ (M : MathLibrary) (s : Double.RobotState),
        Double.moveToPosition M (some (roundDouble 0.24)) (some 0) s =
          (MoveOutcome.ikFailure, s) := by
  refine ⟨⟨Double.isPointReachable_boundary.2, Double.isPointReachable_boundary.1⟩, ?_,
    Double.moveToPosition_boundary⟩
  rw [Double.ikD_boundary, abs_of_pos (by norm_num)]
  norm_num

/-! ## Main results in double precision: trajectory samples -/

theorem referenceMath_powExactAtZero : referenceMath.PowExactAtZero := by
  intro k h3 _
  have hk : k ≠ 0 := by omega
  simp [referenceMath, zero_pow hk, roundDouble_zero]

theorem referenceMath_powExactAtOne : referenceMath.PowExactAtOne := by
  intro k _ _
  simp [referenceMath, roundDouble_one]

theorem referenceMath_powAccurate : referenceMath.PowAccurate := by
  intro n k _ h0 h1 _ _
  have hp := Double.pow_mem_unit h0 h1 k
  exact abs_roundDouble_sub_le_of_lt_32 (by rw [abs_of_nonneg hp.1]; linarith [hp.2])

theorem finiteMove_zero_one : FiniteMove 0 1 :=
  ⟨⟨roundDouble_zero, by norm_num⟩, ⟨roundDouble_one, by norm_num⟩, by norm_num⟩

/-- The last joint sample of the move from the angle `0.7` to the angle `0.1`. -/
theorem Double.last_sample_of_move (M : MathLibrary) (hO : M.PowExactAtOne) :
    Double.jointAt M (roundDouble 0.7) (roundDouble 0.1) 0 20 (Double.sampleTime 0 20 100) =
      roundDouble 0.09999999999999998 := by
  rw [Double.jointAt_last M hO]
  simp only [Double.add, Double.sub, roundDouble_07, roundDouble_01, ev_diff, ev_last,
    roundDouble_lit]

theorem Double.last_sample_lt_target : roundDouble 0.09999999999999998 < roundDouble 0.1 := by
  rw [roundDouble_lit, roundDouble_01]
  norm_num

/-- C4 fails as stated: in the move from the angle `0.7` to the target `0.1`
the last sample `q1[100]` is the double `0.09999999999999998`, which is not the
target (for every `Math.pow` that returns `1` at `1`, as `referenceMath`
does). -/
theorem generateTrajectory_last_sample_misses :
    roundDouble 0.09999999999999998 < roundDouble 0.1 ∧ referenceMath.PowExactAtOne ∧
      ∀ (M : MathLibrary) (s : Double.RobotState) (qd2 : ℚ), M.PowExactAtOne →
        s.q1 = roundDouble 0.7 →
        (Double.generateTrajectory M s (roundDouble 0.1) qd2 0 20).q1[100]? =
          some (roundDouble 0.09999999999999998) := by
  refine ⟨Double.last_sample_lt_target, referenceMath_powExactAtOne, fun M s qd2 hO hs => ?_⟩
  rw [Double.generateTrajectory_q1_getElem? M s _ qd2 0 20 (le_refl 100), hs,
    Double.last_sample_of_move M hO]

/-- C4 as amended: for the default times `ti = 0`, `tf = 20`, finite start and
target angles, and a `Math.pow` that is exact at `0` and `1`, the trajectory has
101 samples per joint, the first sample is the start angle exactly, and the
last sample is the start angle plus the rounded difference to the target,
rounded; it is the target exactly when that difference is computed without
rounding. -/
theorem generateTrajectory_endpoints_double (M : MathLibrary) (s : Double.RobotState)
    (qd1 qd2 : ℚ) (hZ : M.PowExactAtZero) (hO : M.PowExactAtOne)
    (h1 : FiniteMove s.q1 qd1) (h2 : FiniteMove s.q2 qd2) :
    (Double.generateTrajectory M s qd1 qd2 0 20).q1.length = 101 ∧
      (Double.generateTrajectory M s qd1 qd2 0 20).q2.length = 101 ∧
      (Double.generateTrajectory M s qd1 qd2 0 20).q1[0]? = some s.q1 ∧
      (Double.generateTrajectory M s qd1 qd2 0 20).q2[0]? = some s.q2 ∧
      (Double.generateTrajectory M s qd1 qd2 0 20).q1[100]? =
        some (Double.add s.q1 (Double.sub qd1 s.q1)) ∧
      (Double.generateTrajectory M s qd1 qd2 0 20).q2[100]? =
        some (Double.add s.q2 (Double.sub qd2 s.q2)) ∧
      (Double.sub qd1 s.q1 = qd1 - s.q1 →
        (Double.generateTrajectory M s qd1 qd2 0 20).q1[100]? = some qd1) ∧
      (Double.sub qd2 s.q2 = qd2 - s.q2 →
        (Double.generateTrajectory M s qd1 qd2 0 20).q2[100]? = some qd2) := by
  have e1 := Double.generateTrajectory_q1_getElem? M s qd1 qd2 0 20 (le_refl 100)
  have e2 := Double.generateTrajectory_q2_getElem? M s qd1 qd2 0 20 (le_refl 100)
  rw [Double.jointAt_last M hO] at e1 e2
  refine ⟨by simp [Double.generateTrajectory, Double.timeSteps],
    by simp [Double.generateTrajectory, Double.timeSteps], ?_, ?_, e1, e2, ?_, ?_⟩
  · rw [Double.generateTrajectory_q1_getElem? M s qd1 qd2 0 20 (Nat.zero_le _),
      Double.jointAt_first M hZ qd1 h1.1.1]
  · rw [Double.generateTrajectory_q2_getElem? M s qd1 qd2 0 20 (Nat.zero_le _),
      Double.jointAt_first M hZ qd2 h2.1.1]
  · intro he
    have hs : s.q1 + (qd1 - s.q1) = qd1 := by ring
    rw [e1, he, Double.add, hs, h1.2.1.1]
  · intro he
    have hs : s.q2 + (qd2 - s.q2) = qd2 := by ring
    rw [e2, he, Double.add, hs, h2.2.1.1]

/-- Witness for C4 as amended: the move from the stretched pose `(0, 0)` to the
angles `(1, 1)`, whose differences are computed without rounding. -/
theorem generateTrajectory_endpoints_double_witness :
    referenceMath.PowExactAtZero ∧ referenceMath.PowExactAtOne ∧ FiniteMove 0 1 ∧
      (Double.generateTrajectory referenceMath Double.stretchedState 1 1 0 20).q1[0]? =
        some 0 ∧
      (Double.generateTrajectory referenceMath Double.stretchedState 1 1 0 20).q1[100]? =
        some 1 :=
  have h := generateTrajectory_endpoints_double referenceMath Double.stretchedState 1 1
    referenceMath_powExactAtZero referenceMath_powExactAtOne finiteMove_zero_one
    finiteMove_zero_one
  ⟨referenceMath_powExactAtZero, referenceMath_powExactAtOne, finiteMove_zero_one,
    h.2.2.1,
    h.2.2.2.2.2.2.1 (by simp [Double.sub, Double.stretchedState, roundDouble_one])⟩

/-- C9 fails as stated: in the move from the angle `0.7` down to the target
`0.1` the sample `q1[100]` (sample `i + 1` for `i = 99`) lies below the target,
so it is not between the start and the target angle. -/
theorem generateTrajectory_overshoots :
    roundDouble 0.1 ≤ roundDouble 0.7 ∧ referenceMath.PowExactAtOne ∧
      ∀ (M : MathLibrary) (s : Double.RobotState) (qd2 : ℚ), M.PowExactAtOne →
        s.q1 = roundDouble 0.7 →
        ∃ b : ℚ, (Double.generateTrajectory M s (roundDouble 0.1) qd2 0 20).q1[100]? = some b ∧
          b < roundDouble 0.1 := by
  refine ⟨?_, referenceMath_powExactAtOne, fun M s qd2 hO hs => ?_⟩
  · rw [roundDouble_01, roundDouble_07]
    norm_num
  · refine ⟨_, Double.generateTrajectory_q1_getElem? M s _ qd2 0 20 (le_refl 100), ?_⟩
    rw [hs, Double.last_sample_of_move M hO]
    exact Double.last_sample_lt_target

/-- C9 as amended: for the default times `ti = 0`, `tf = 20`, finite start and
target angles, and a `Math.pow` that is exact at `0` and accurate on `[0, 1]`,
the samples `i` and `i + 1` of each joint (`i < 100`) exist and are ordered like
the start and target angle of that joint, and every sample lies between the
start angle and the last sample `q[100]`. -/
theorem generateTrajectory_monotone_double (M : MathLibrary) (s : Double.RobotState)
    (qd1 qd2 : ℚ) (hM : M.PowAccurate) (hZ : M.PowExactAtZero)
    (h1 : FiniteMove s.q1 qd1) (h2 : FiniteMove s.q2 qd2) (i : ℕ) (hi : i < 100) :
    ∃ a1 b1 c1 a2 b2 c2 : ℚ,
      (Double.generateTrajectory M s qd1 qd2 0 20).q1[i]? = some a1 ∧
      (Double.generateTrajectory M s qd1 qd2 0 20).q1[i + 1]? = some b1 ∧
      (Double.generateTrajectory M s qd1 qd2 0 20).q1[100]? = some c1 ∧
      (Double.generateTrajectory M s qd1 qd2 0 20).q2[i]? = some a2 ∧
      (Double.generateTrajectory M s qd1 qd2 0 20).q2[i + 1]? = some b2 ∧
      (Double.generateTrajectory M s qd1 qd2 0 20).q2[100]? = some c2 ∧
      (s.q1 ≤ qd1 → a1 ≤ b1 ∧ s.q1 ≤ a1 ∧ b1 ≤ c1) ∧
      (qd1 ≤ s.q1 → b1 ≤ a1 ∧ c1 ≤ b1 ∧ a1 ≤ s.q1) ∧
      (s.q2 ≤ qd2 → a2 ≤ b2 ∧ s.q2 ≤ a2 ∧ b2 ≤ c2) ∧
      (qd2 ≤ s.q2 → b2 ≤ a2 ∧ c2 ≤ b2 ∧ a2 ≤ s.q2) :=
  ⟨_, _, _, _, _, _,
    Double.generateTrajectory_q1_getElem? M s qd1 qd2 0 20 (Nat.le_of_lt hi),
    Double.generateTrajectory_q1_getElem? M s qd1 qd2 0 20 (Nat.succ_le_of_lt hi),
    Double.generateTrajectory_q1_getElem? M s qd1 qd2 0 20 (le_refl 100),
    Double.generateTrajectory_q2_getElem? M s qd1 qd2 0 20 (Nat.le_of_lt hi),
    Double.generateTrajectory_q2_getElem? M s qd1 qd2 0 20 (Nat.succ_le_of_lt hi),
    Double.generateTrajectory_q2_getElem? M s qd1 qd2 0 20 (le_refl 100),
    (Double.jointAt_step_default M hM hZ qd1 h1.1.1 hi).1,
    (Double.jointAt_step_default M hM hZ qd1 h1.1.1 hi).2,
    (Double.jointAt_step_default M hM hZ qd2 h2.1.1 hi).1,
    (Double.jointAt_step_default M hM hZ qd2 h2.1.1 hi).2⟩

/-- Witness for C9 as amended: the first two samples of the move from the
stretched pose `(0, 0)` to the angles `(1, 1)`. -/
theorem generateTrajectory_monotone_double_witness :
    referenceMath.PowAccurate ∧ referenceMath.PowExactAtZero ∧ FiniteMove 0 1 ∧ 0 < 100 ∧
      ∃ a1 b1 c1 : ℚ,
        (Double.generateTrajectory referenceMath Double.stretchedState 1 1 0 20).q1[0]? =
          some a1 ∧
        (Double.generateTrajectory referenceMath Double.stretchedState 1 1 0 20).q1[0 + 1]? =
          some b1 ∧
        (Double.generateTrajectory referenceMath Double.stretchedState 1 1 0 20).q1[100]? =
          some c1 ∧
        a1 ≤ b1 ∧ 0 ≤ a1 ∧ b1 ≤ c1 := by
  obtain ⟨a1, b1, c1, -, -, -, ha, hb, hc, -, -, -, h, -⟩ :=
    generateTrajectory_monotone_double referenceMath Double.stretchedState 1 1
      referenceMath_powAccurate referenceMath_powExactAtZero finiteMove_zero_one
      finiteMove_zero_one 0 (by norm_num)
  have h3 := h (by simp [Double.stretchedState])
  exact ⟨referenceMath_powAccurate, referenceMath_powExactAtZero, finiteMove_zero_one,
    by norm_num, a1, b1, c1, ha, hb, hc, h3.1, h3.2.1, h3.2.2⟩

/-! ## Main results: the round trip -/

theorem Double.forwardKinematics_zero (M : MathLibrary) (hc : M.cos 0 = 1) (hs : M.sin 0 = 0) :
    Double.forwardKinematics M 0 0 = ⟨roundDouble 0.24, 0⟩ := by
  simp only [Double.forwardKinematics, Double.add, Double.mul, Double.l1, Double.l2, add_zero,
    roundDouble_zero, hc, hs, mul_one, mul_zero, roundDouble_idem, roundDouble_012, ev_012_fix,
    ev_l_add_l, roundDouble_024]

/-- C5 fails as stated: the joint angles `(0, 0)` have `q2` in `[0, π]`, their
forward-kinematics point computed by the program is `(0.24, 0)` (for every
`Math` with `cos 0 = 1` and `sin 0 = 0`, as `referenceMath` has), and
`inverseKinematics` returns `null` for that point. -/
theorem inverseKinematics_roundtrip_fails_double :
    (0 : ℝ) ≤ 0 ∧ (0 : ℝ) ≤ Real.pi ∧ (referenceMath.cos 0 = 1 ∧ referenceMath.sin 0 = 0) ∧
      ∀ M : MathLibrary, M.cos 0 = 1 → M.sin 0 = 0 →
        Double.forwardKinematics M 0 0 = ⟨roundDouble 0.24, 0⟩ ∧
          Double.inverseKinematics M (Double.forwardKinematics M 0 0).x
            (Double.forwardKinematics M 0 0).y = none := by
  refine ⟨le_refl _, Real.pi_pos.le, ⟨?_, ?_⟩, fun M hc hs => ?_⟩
  · simp [referenceMath, roundDouble_one]
  · simp [referenceMath, roundDouble_zero]
  · have h := Double.forwardKinematics_zero M hc hs
    refine ⟨h, ?_⟩
    rw [h]
    exact Double.inverseKinematics_boundary M

/-- C5 as amended: for joint angles with `q2` in `[0.01, π - 0.01]` and
`|q1 + q2 / 2| ≤ π - 0.01` (away from the workspace boundary, the origin and
the branch cut of `atan2`), the solver applied to their forward-kinematics
point does not fail and returns angles within `1e-9` of `(q1, q2)`.  Proved in
the exact reading, where the returned angles are `(q1, q2)`. -/
theorem inverseKinematics_forwardKinematics_interior (q1 q2 : ℝ) (h0 : 0.01 ≤ q2)
    (hpi : q2 ≤ Real.pi - 0.01) (hlo : -(Real.pi - 0.01) ≤ q1 + q2 / 2)
    (hhi : q1 + q2 / 2 ≤ Real.pi - 0.01) :
    ∃ a : JointAngles,
      inverseKinematics (forwardKinematics q1 q2).x (forwardKinematics q1 q2).y = some a ∧
        |a.q1 - q1| ≤ 1e-9 ∧ |a.q2 - q2| ≤ 1e-9 := by
  obtain ⟨a, ha, h2, -, h1⟩ :=
    inverseKinematics_forwardKinematics_aux q1 q2 (by linarith) (by linarith)
  have hq1 := h1 (by linarith) (by linarith) (by linarith)
  refine ⟨a, ha, ?_, ?_⟩
  · rw [hq1, sub_self, abs_zero]; norm_num
  · rw [h2, sub_self, abs_zero]; norm_num

/-- Witness for C5 as amended: the joint angles `(1 / 2, 1)`. -/
theorem inverseKinematics_forwardKinematics_interior_witness :
    (0.01 : ℝ) ≤ 1 ∧ (1 : ℝ) ≤ Real.pi - 0.01 ∧ -(Real.pi - 0.01) ≤ (1 / 2 : ℝ) + 1 / 2 ∧
      (1 / 2 : ℝ) + 1 / 2 ≤ Real.pi - 0.01 ∧
      ∃ a : JointAngles,
        inverseKinematics (forwardKinematics (1 / 2) 1).x (forwardKinematics (1 / 2) 1).y =
            some a ∧
          |a.q1 - 1 / 2| ≤ 1e-9 ∧ |a.q2 - 1| ≤ 1e-9 := by
  have hpi := Real.pi_gt_three
  have a : (0.01 : ℝ) ≤ 1 := by norm_num
  have b : (1 : ℝ) ≤ Real.pi - 0.01 := by norm_num; linarith
  have c : -(Real.pi - 0.01) ≤ (1 / 2 : ℝ) + 1 / 2 := by norm_num; linarith
  have d : (1 / 2 : ℝ) + 1 / 2 ≤ Real.pi - 0.01 := by norm_num; linarith
  exact ⟨a, b, c, d, inverseKinematics_forwardKinematics_interior (1 / 2) 1 a b c d⟩

end Robot

end
